import Mathlib

/-!
Verification of the CodeFlow authenticator's cryptographic and encoding core:
a shallow embedding of the Base32 codec, the HOTP/TOTP engine (with a full
HMAC-SHA1 implementation), the PBKDF2/AES-256-GCM envelope-encryption layer,
the encrypted account store over a string key/value store, and the migration
payload mapping.  JavaScript strings are modelled as `List Char` (sequences of
Unicode scalar values), byte arrays as `List Nat` with every element `< 256`,
and machine arithmetic is carried out on `Nat` with explicit `% 2^w`
reductions where the source relies on fixed-width overflow.
-/

set_option maxRecDepth 1000000

deriving instance DecidableEq for Except

namespace CodeFlow

/-! ## Bit-level utilities -/

/-- Big-endian `w`-bit representation of `n` (most significant bit first).
Models the JavaScript idiom `n.toString(2).padStart(w, '0')` for `n < 2^w`. -/
def natToBits : Nat → Nat → List Bool
  | 0, _ => []
  | w + 1, n => natToBits w (n / 2) ++ [decide (n % 2 = 1)]

/-- Value of a big-endian bit string; models `parseInt(bits, 2)`. -/
def bitsToNat (l : List Bool) : Nat :=
  l.foldl (fun acc b => 2 * acc + (if b then 1 else 0)) 0

/-- Fuel-driven worker for `chunks`; the fuel is an upper bound on the list
length so that recursion is structural (and hence kernel-reducible). -/
def chunksFuel (k : Nat) : Nat → List α → List (List α)
  | _, [] => []
  | 0, l => [l]
  | fuel + 1, a :: l => ((a :: l).take k) :: chunksFuel k fuel ((a :: l).drop k)

/-- Split a list into consecutive groups of `k` elements; a final group
shorter than `k` is kept.  Models the JavaScript patterns
`string.match(/.{1,k}/g)` and the stride-`k` slicing loops of the source. -/
def chunks (k : Nat) (l : List α) : List (List α) :=
  chunksFuel k l.length l

/-- Bytewise exclusive or; models `a[i] ^ b[i]` over parallel arrays. -/
def xorBytes (a b : List Nat) : List Nat :=
  List.zipWith (· ^^^ ·) a b

/-- Big-endian value of a byte list. -/
def bytesToNatBE (l : List Nat) : Nat :=
  l.foldl (fun acc b => 256 * acc + b) 0

/-! ## Base32 codec

The encoder is `bytesToBase32` from `src/components/AddAccountModal.tsx`
(lines 63–80); the decoder is `base32ToBytes` from
`src/services/totpService.ts` (lines 3–13). -/

/-- The RFC 4648 alphabet string used by both source functions. -/
def base32Chars : List Char := "ABCDEFGHIJKLMNOPQRSTUVWXYZ234567".toList

/-- Base32 encoder from `AddAccountModal.tsx`: concatenate the 8-bit
big-endian expansions of the bytes, then walk the bit string in strides of 5
and emit an alphabet symbol for each chunk *of exactly 5 bits* — the guard
`if (chunk.length === 5)` in the source silently drops a shorter final
chunk. -/
def bytesToBase32 (bytes : List Nat) : List Char :=
  let bits := bytes.flatMap (natToBits 8)
  (chunks 5 bits).filterMap (fun chunk =>
    if chunk.length = 5 then some (base32Chars.getD (bitsToNat chunk) 'A') else none)

/-- The two failure modes of `base32ToBytes`: the explicit
`throw new Error("Invalid base32 character")`, and the untyped runtime
`TypeError` raised by dereferencing `bits.match(/.{1,8}/g)!` when `bits` is
the empty string (the regex match is `null`). -/
inductive Base32Error
  | invalidCharacter
  | nullMatchTypeError
deriving DecidableEq

/-- Strip one maximal run of trailing `=` characters; models
`.replace(/=+$/, '')`. -/
def stripTrailingPadding (s : List Char) : List Char :=
  (s.reverse.dropWhile (· = '=')).reverse

/-- Base32 decoder from `totpService.ts`: upper-case the input, strip
trailing padding, map each symbol to its 5-bit big-endian expansion
(failing on a symbol outside the alphabet), concatenate, cut the bit string
into groups of up to 8 bits and keep the first `⌊bits/8⌋` values, i.e. the
whole bytes.  An empty bit string makes `bits.match(/.{1,8}/g)` return
`null`, which the source dereferences with `!`: an untyped runtime crash,
modelled by `Base32Error.nullMatchTypeError`. -/
def base32ToBytes (base32 : List Char) : Except Base32Error (List Nat) := do
  let vals ← (stripTrailingPadding (base32.map Char.toUpper)).mapM (fun c =>
    match base32Chars.indexOf? c with
    | some v => Except.ok v
    | none => Except.error Base32Error.invalidCharacter)
  match chunks 8 (vals.flatMap (natToBits 5)) with
  | [] => Except.error Base32Error.nullMatchTypeError
  | groups =>
    Except.ok ((groups.map bitsToNat).take ((vals.flatMap (natToBits 5)).length / 8))

/-! ## 32- and 64-bit helpers -/

/-- Two to the 32nd, the modulus of JavaScript 32-bit unsigned views. -/
def pow32 : Nat := 4294967296

/-- Left rotation of a 32-bit word. -/
def rotl32 (n x : Nat) : Nat :=
  ((x % pow32) * 2 ^ n) % pow32 + (x % pow32) / 2 ^ (32 - n)

/-- The four big-endian bytes a `DataView.setUint32(_, n, false)` call
stores: the value is reduced mod `2^32` first. -/
def u32BytesBE (n : Nat) : List Nat :=
  let m := n % pow32
  [m / 16777216, m / 65536 % 256, m / 256 % 256, m % 256]

/-- Eight big-endian bytes of `n % 2^64`. -/
def u64BytesBE (n : Nat) : List Nat :=
  u32BytesBE (n / pow32) ++ u32BytesBE n

/-! ## SHA-1 and HMAC-SHA1

The source calls the platform primitive `crypto.subtle.sign('HMAC', …)` with
hash SHA-1; the primitive itself is not part of the repository, so it is
embedded here in full from its standard definition (FIPS 180-4 / RFC 2104)
over byte lists. -/

/-- Merkle–Damgård padding shared by SHA-1 and SHA-256: append `0x80`, then
zeros, then the 64-bit big-endian bit length, reaching a multiple of 64
bytes. -/
def shaPad (msg : List Nat) : List Nat :=
  msg ++ 128 :: List.replicate ((64 - (msg.length + 9) % 64) % 64) 0
      ++ u64BytesBE (8 * msg.length)

/-- Extend a 16-word SHA-1 message schedule by `n` further words. -/
def sha1ExtendW (w : List Nat) : Nat → List Nat
  | 0 => w
  | n + 1 =>
    let w2 := sha1ExtendW w n
    let i := w2.length
    w2 ++ [rotl32 1 (w2.getD (i - 3) 0 ^^^ w2.getD (i - 8) 0 ^^^
                     w2.getD (i - 14) 0 ^^^ w2.getD (i - 16) 0)]

/-- One SHA-1 round: state `(a,b,c,d,e)` and round index `i` with schedule
`ws`. -/
def sha1Round (ws : List Nat) (st : Nat × Nat × Nat × Nat × Nat) (i : Nat) :
    Nat × Nat × Nat × Nat × Nat :=
  let (a, b, c, d, e) := st
  let f :=
    if i < 20 then (b &&& c) ||| ((b ^^^ (pow32 - 1)) &&& d)
    else if i < 40 then b ^^^ c ^^^ d
    else if i < 60 then (b &&& c) ||| (b &&& d) ||| (c &&& d)
    else b ^^^ c ^^^ d
  let k :=
    if i < 20 then 1518500249
    else if i < 40 then 1859775393
    else if i < 60 then 2400959708
    else 3395469782
  let temp := (rotl32 5 a + f + e + k + ws.getD i 0) % pow32
  (temp, a, rotl32 30 b, c, d)

/-- SHA-1 compression of one 64-byte block into the 5-word state. -/
def sha1Compress (h : List Nat) (block : List Nat) : List Nat :=
  let w0 := (chunks 4 block).map bytesToNatBE
  let ws := sha1ExtendW w0 64
  let s0 := (h.getD 0 0, h.getD 1 0, h.getD 2 0, h.getD 3 0, h.getD 4 0)
  let (a, b, c, d, e) := (List.range 80).foldl (sha1Round ws) s0
  [(h.getD 0 0 + a) % pow32, (h.getD 1 0 + b) % pow32, (h.getD 2 0 + c) % pow32,
   (h.getD 3 0 + d) % pow32, (h.getD 4 0 + e) % pow32]

/-- SHA-1 of a byte list, as a 20-byte digest. -/
def sha1 (msg : List Nat) : List Nat :=
  let h := (chunks 64 (shaPad msg)).foldl sha1Compress
    [1732584193, 4023233417, 2562383102, 271733878, 3285377520]
  h.flatMap u32BytesBE

/-- HMAC-SHA1 (RFC 2104) with the 64-byte block size. -/
def hmacSha1 (key msg : List Nat) : List Nat :=
  let k0 := if key.length > 64 then sha1 key else key
  let k := k0 ++ List.replicate (64 - k0.length) 0
  sha1 ((k.map (· ^^^ 92)) ++ sha1 ((k.map (· ^^^ 54)) ++ msg))

/-! ## HOTP engine

`generateHOTP` from `src/services/totpService.ts` (lines 15–48).  The
bitwise `|` combinations of disjoint shifted byte fields are written as
sums, and `& 0x0f` / `& 0x7f` as `% 16` / `% 128`, which agree on the byte
values involved. -/

/-- Left-zero-pad a character list to length `n`; models
`s.padStart(n, c)`. -/
def padStartChars (n : Nat) (c : Char) (s : List Char) : List Char :=
  List.replicate (n - s.length) c ++ s

/-- The 8 counter bytes the source assembles through two big-endian
`setUint32` calls on `hi = ⌊counter / 2^32⌋` and `lo = counter % 2^32`. -/
def counterBytes (counter : Nat) : List Nat :=
  u32BytesBE (counter / 4294967296) ++ u32BytesBE (counter % 4294967296)

/-- `generateHOTP` from `totpService.ts`: Base32-decode the secret (its
errors propagate), HMAC-SHA1 the 8 counter bytes, apply RFC 4226 dynamic
truncation, reduce mod `10^6` and left-pad the decimal rendering to six
digits. -/
def generateHOTP (secret : List Char) (counter : Nat) :
    Except Base32Error (List Char) := do
  let decodedSecret ← base32ToBytes secret
  let hmacBytes := hmacSha1 decodedSecret (counterBytes counter)
  let offset := hmacBytes.getLastD 0 % 16
  let binary :=
    (hmacBytes.getD offset 0 % 128) * 16777216 +
    hmacBytes.getD (offset + 1) 0 * 65536 +
    hmacBytes.getD (offset + 2) 0 * 256 +
    hmacBytes.getD (offset + 3) 0
  let otp := binary % 1000000
  pure (padStartChars 6 '0' (Nat.repr otp).toList)

/-- Modelled from the spec (section 4.2): the RFC 4226 reference
computation of `hotp(secret, counter)`, written following the spec's own
wording — counter as 8 big-endian bytes, HMAC-SHA1 digest, `offset =
digest[19] & 0x0F`, 31-bit dynamic truncation with explicit `& 0xFF`
masks, value mod 1,000,000, left-zero-padded to six digits.  It is the
comparison point for the refinement claim about `generateHOTP`. -/
def rfcHotp (secret : List Char) (counter : Nat) :
    Except Base32Error (List Char) := do
  let key ← base32ToBytes secret
  let digest := hmacSha1 key (u64BytesBE counter)
  let offset := digest.getD 19 0 % 16
  let value :=
    (digest.getD offset 0 % 128) * 16777216 +
    (digest.getD (offset + 1) 0 % 256) * 65536 +
    (digest.getD (offset + 2) 0 % 256) * 256 +
    digest.getD (offset + 3) 0 % 256
  pure (padStartChars 6 '0' (Nat.repr (value % 1000000)).toList)

/-- The enrollment verification check of `handleVerificationSubmit`
(`AddAccountModal.tsx`, lines 285–312): compute the codes for the previous,
current and next 30-second counter and accept the submitted code exactly
when `validCodes.includes(verificationCode)`. -/
def handleVerificationAccepts (secret : List Char) (counter : Nat)
    (verificationCode : List Char) : Except Base32Error Bool := do
  let c1 ← generateHOTP secret (counter - 1)
  let c2 ← generateHOTP secret counter
  let c3 ← generateHOTP secret (counter + 1)
  pure ([c1, c2, c3].contains verificationCode)

/-! ## SHA-256, HMAC-SHA256 and PBKDF2

`deriveKey` in the source calls the platform primitives
`crypto.subtle.importKey` / `deriveKey` with PBKDF2, SHA-256 and 100,000
iterations; the primitives are embedded from their standard definitions
(FIPS 180-4, RFC 2104, RFC 8018). -/

/-- Right rotation of a 32-bit word. -/
def rotr32 (n x : Nat) : Nat :=
  (x % pow32) / 2 ^ n + ((x % pow32) % 2 ^ n) * 2 ^ (32 - n)

/-- The 64 SHA-256 round constants. -/
def sha256K : List Nat :=
  [1116352408, 1899447441, 3049323471, 3921009573, 961987163, 1508970993, 2453635748, 2870763221,
   3624381080, 310598401, 607225278, 1426881987, 1925078388, 2162078206, 2614888103, 3248222580,
   3835390401, 4022224774, 264347078, 604807628, 770255983, 1249150122, 1555081692, 1996064986,
   2554220882, 2821834349, 2952996808, 3210313671, 3336571891, 3584528711, 113926993, 338241895,
   666307205, 773529912, 1294757372, 1396182291, 1695183700, 1986661051, 2177026350, 2456956037,
   2730485921, 2820302411, 3259730800, 3345764771, 3516065817, 3600352804, 4094571909, 275423344,
   430227734, 506948616, 659060556, 883997877, 958139571, 1322822218, 1537002063, 1747873779,
   1955562222, 2024104815, 2227730452, 2361852424, 2428436474, 2756734187, 3204031479, 3329325298]

/-- Extend a 16-word SHA-256 message schedule by `n` further words. -/
def sha256ExtendW (w : List Nat) : Nat → List Nat
  | 0 => w
  | n + 1 =>
    let w2 := sha256ExtendW w n
    let i := w2.length
    let x15 := w2.getD (i - 15) 0
    let x2 := w2.getD (i - 2) 0
    let s0 := rotr32 7 x15 ^^^ rotr32 18 x15 ^^^ x15 / 2 ^ 3
    let s1 := rotr32 17 x2 ^^^ rotr32 19 x2 ^^^ x2 / 2 ^ 10
    w2 ++ [(w2.getD (i - 16) 0 + s0 + w2.getD (i - 7) 0 + s1) % pow32]

/-- One SHA-256 round. -/
def sha256Round (ws : List Nat)
    (st : Nat × Nat × Nat × Nat × Nat × Nat × Nat × Nat) (i : Nat) :
    Nat × Nat × Nat × Nat × Nat × Nat × Nat × Nat :=
  let (a, b, c, d, e, f, g, h) := st
  let s1 := rotr32 6 e ^^^ rotr32 11 e ^^^ rotr32 25 e
  let ch := (e &&& f) ^^^ ((e ^^^ (pow32 - 1)) &&& g)
  let t1 := (h + s1 + ch + sha256K.getD i 0 + ws.getD i 0) % pow32
  let s0 := rotr32 2 a ^^^ rotr32 13 a ^^^ rotr32 22 a
  let mj := (a &&& b) ^^^ (a &&& c) ^^^ (b &&& c)
  let t2 := (s0 + mj) % pow32
  ((t1 + t2) % pow32, a, b, c, (d + t1) % pow32, e, f, g)

/-- SHA-256 compression of one 64-byte block into the 8-word state. -/
def sha256Compress (h : List Nat) (block : List Nat) : List Nat :=
  let w0 := (chunks 4 block).map bytesToNatBE
  let ws := sha256ExtendW w0 48
  let s0 := (h.getD 0 0, h.getD 1 0, h.getD 2 0, h.getD 3 0,
             h.getD 4 0, h.getD 5 0, h.getD 6 0, h.getD 7 0)
  let (a, b, c, d, e, f, g, h8) := (List.range 64).foldl (sha256Round ws) s0
  [(h.getD 0 0 + a) % pow32, (h.getD 1 0 + b) % pow32, (h.getD 2 0 + c) % pow32,
   (h.getD 3 0 + d) % pow32, (h.getD 4 0 + e) % pow32, (h.getD 5 0 + f) % pow32,
   (h.getD 6 0 + g) % pow32, (h.getD 7 0 + h8) % pow32]

/-- SHA-256 of a byte list, as a 32-byte digest. -/
def sha256 (msg : List Nat) : List Nat :=
  let h := (chunks 64 (shaPad msg)).foldl sha256Compress
    [1779033703, 3144134277, 1013904242, 2773480762,
     1359893119, 2600822924, 528734635, 1541459225]
  h.flatMap u32BytesBE

/-- HMAC-SHA256 (RFC 2104) with the 64-byte block size. -/
def hmacSha256 (key msg : List Nat) : List Nat :=
  let k0 := if key.length > 64 then sha256 key else key
  let k := k0 ++ List.replicate (64 - k0.length) 0
  sha256 ((k.map (· ^^^ 92)) ++ sha256 ((k.map (· ^^^ 54)) ++ msg))

/-- The xor-accumulating PBKDF2 iteration: given the previous `U` value and
the running xor `acc`, perform `n` further PRF applications. -/
def pbkdf2Iter (pw u acc : List Nat) : Nat → List Nat
  | 0 => acc
  | n + 1 =>
    let u2 := hmacSha256 pw u
    pbkdf2Iter pw u2 (xorBytes acc u2) n

/-! ## UTF-8

`TextEncoder.encode` / `TextDecoder.decode`, the platform string–byte
conversions used by `encrypt`, `decrypt` and `deriveKey`, embedded from the
UTF-8 definition over Unicode scalar values. -/

/-- UTF-8 encoding of one Unicode scalar value. -/
def utf8EncodeChar (c : Char) : List Nat :=
  let n := c.toNat
  if n < 128 then [n]
  else if n < 2048 then [192 + n / 64, 128 + n % 64]
  else if n < 65536 then [224 + n / 4096, 128 + n / 64 % 64, 128 + n % 64]
  else [240 + n / 262144, 128 + n / 4096 % 64, 128 + n / 64 % 64, 128 + n % 64]

/-- UTF-8 encoding of a string (`TextEncoder.encode`). -/
def utf8Encode (s : List Char) : List Nat :=
  s.flatMap utf8EncodeChar

/-- Whether a byte is a UTF-8 continuation byte. -/
def isCont (b : Nat) : Bool := 128 ≤ b ∧ b < 192

/-- Fuel-driven UTF-8 decoder; invalid sequences decode to the replacement
character `U+FFFD`, as `TextDecoder` does in its default non-fatal mode. -/
def utf8DecodeFuel : Nat → List Nat → List Char
  | 0, _ => []
  | _, [] => []
  | fuel + 1, b0 :: rest =>
    if b0 < 128 then Char.ofNat b0 :: utf8DecodeFuel fuel rest
    else if b0 < 192 then '\uFFFD' :: utf8DecodeFuel fuel rest
    else if b0 < 224 then
      match rest with
      | b1 :: r =>
        if isCont b1 then
          Char.ofNat ((b0 - 192) * 64 + (b1 - 128)) :: utf8DecodeFuel fuel r
        else '\uFFFD' :: utf8DecodeFuel fuel rest
      | [] => ['\uFFFD']
    else if b0 < 240 then
      match rest with
      | b1 :: b2 :: r =>
        if isCont b1 ∧ isCont b2 then
          Char.ofNat ((b0 - 224) * 4096 + (b1 - 128) * 64 + (b2 - 128)) ::
            utf8DecodeFuel fuel r
        else '\uFFFD' :: utf8DecodeFuel fuel rest
      | _ => ['\uFFFD']
    else
      match rest with
      | b1 :: b2 :: b3 :: r =>
        if isCont b1 ∧ isCont b2 ∧ isCont b3 then
          Char.ofNat ((b0 - 240) * 262144 + (b1 - 128) * 4096 +
              (b2 - 128) * 64 + (b3 - 128)) :: utf8DecodeFuel fuel r
        else '\uFFFD' :: utf8DecodeFuel fuel rest
      | _ => ['\uFFFD']

/-- UTF-8 decoding of a byte list (`TextDecoder.decode`). -/
def utf8Decode (bs : List Nat) : List Char :=
  utf8DecodeFuel bs.length bs

/-! ## AES-256

The block cipher behind the platform's AES-GCM (`crypto.subtle.encrypt` /
`decrypt` with `name: 'AES-GCM'`), embedded from FIPS 197.  The 16-byte
state is kept column-major as a flat byte list. -/

/-- The AES S-box. -/
def sbox : List Nat :=
  [99, 124, 119, 123, 242, 107, 111, 197, 48, 1, 103, 43, 254, 215, 171, 118,
   202, 130, 201, 125, 250, 89, 71, 240, 173, 212, 162, 175, 156, 164, 114, 192,
   183, 253, 147, 38, 54, 63, 247, 204, 52, 165, 229, 241, 113, 216, 49, 21,
   4, 199, 35, 195, 24, 150, 5, 154, 7, 18, 128, 226, 235, 39, 178, 117,
   9, 131, 44, 26, 27, 110, 90, 160, 82, 59, 214, 179, 41, 227, 47, 132,
   83, 209, 0, 237, 32, 252, 177, 91, 106, 203, 190, 57, 74, 76, 88, 207,
   208, 239, 170, 251, 67, 77, 51, 133, 69, 249, 2, 127, 80, 60, 159, 168,
   81, 163, 64, 143, 146, 157, 56, 245, 188, 182, 218, 33, 16, 255, 243, 210,
   205, 12, 19, 236, 95, 151, 68, 23, 196, 167, 126, 61, 100, 93, 25, 115,
   96, 129, 79, 220, 34, 42, 144, 136, 70, 238, 184, 20, 222, 94, 11, 219,
   224, 50, 58, 10, 73, 6, 36, 92, 194, 211, 172, 98, 145, 149, 228, 121,
   231, 200, 55, 109, 141, 213, 78, 169, 108, 86, 244, 234, 101, 122, 174, 8,
   186, 120, 37, 46, 28, 166, 180, 198, 232, 221, 116, 31, 75, 189, 139, 138,
   112, 62, 181, 102, 72, 3, 246, 14, 97, 53, 87, 185, 134, 193, 29, 158,
   225, 248, 152, 17, 105, 217, 142, 148, 155, 30, 135, 233, 206, 85, 40, 223,
   140, 161, 137, 13, 191, 230, 66, 104, 65, 153, 45, 15, 176, 84, 187, 22]

/-- Multiplication by `x` in GF(2^8) with the AES reduction polynomial. -/
def xtime (b : Nat) : Nat :=
  if b < 128 then 2 * b else (2 * b) % 256 ^^^ 27

/-- Substitute every byte through the S-box. -/
def subWord (w : List Nat) : List Nat :=
  w.map (fun b => sbox.getD b 0)

/-- Rotate a 4-byte word left by one byte. -/
def rotWord (w : List Nat) : List Nat :=
  w.drop 1 ++ w.take 1

/-- Xor a round constant into the first byte of a word. -/
def xorRcon (w : List Nat) (r : Nat) : List Nat :=
  match w with
  | [] => []
  | t :: rest => (t ^^^ r) :: rest

/-- The AES round constants used by the 256-bit key schedule. -/
def rcon (j : Nat) : Nat := [1, 2, 4, 8, 16, 32, 64].getD (j - 1) 0

/-- Extend the key-schedule word list by `n` further 4-byte words
(FIPS 197 key expansion with `Nk = 8`). -/
def aesExpandWords (ws : List (List Nat)) : Nat → List (List Nat)
  | 0 => ws
  | n + 1 =>
    let ws2 := aesExpandWords ws n
    let i := ws2.length
    let temp := ws2.getD (i - 1) []
    let temp2 :=
      if i % 8 = 0 then xorRcon (subWord (rotWord temp)) (rcon (i / 8))
      else if i % 8 = 4 then subWord temp
      else temp
    ws2 ++ [xorBytes (ws2.getD (i - 8) []) temp2]

/-- The 60 round-key words of AES-256. -/
def aesExpandKey (key : List Nat) : List (List Nat) :=
  aesExpandWords (chunks 4 key) 52

/-- The 16 bytes of round key `r`. -/
def roundKeyBytes (ws : List (List Nat)) (r : Nat) : List Nat :=
  ((ws.drop (4 * r)).take 4).flatten

/-- AES ShiftRows on the column-major flat state. -/
def shiftRows (s : List Nat) : List Nat :=
  [s.getD 0 0, s.getD 5 0, s.getD 10 0, s.getD 15 0,
   s.getD 4 0, s.getD 9 0, s.getD 14 0, s.getD 3 0,
   s.getD 8 0, s.getD 13 0, s.getD 2 0, s.getD 7 0,
   s.getD 12 0, s.getD 1 0, s.getD 6 0, s.getD 11 0]

/-- AES MixColumns on one 4-byte column. -/
def mixColumn (c : List Nat) : List Nat :=
  let a0 := c.getD 0 0
  let a1 := c.getD 1 0
  let a2 := c.getD 2 0
  let a3 := c.getD 3 0
  [xtime a0 ^^^ (xtime a1 ^^^ a1) ^^^ a2 ^^^ a3,
   a0 ^^^ xtime a1 ^^^ (xtime a2 ^^^ a2) ^^^ a3,
   a0 ^^^ a1 ^^^ xtime a2 ^^^ (xtime a3 ^^^ a3),
   (xtime a0 ^^^ a0) ^^^ a1 ^^^ a2 ^^^ xtime a3]

/-- AES MixColumns on the flat state. -/
def mixColumns (s : List Nat) : List Nat :=
  (chunks 4 s).flatMap mixColumn

/-- The middle rounds 1 … n of AES. -/
def aesRounds (ws : List (List Nat)) (st : List Nat) : Nat → List Nat
  | 0 => st
  | n + 1 =>
    xorBytes (mixColumns (shiftRows (subWord (aesRounds ws st n)))) (roundKeyBytes ws (n + 1))

/-- AES-256 encryption of one 16-byte block. -/
def aes256EncryptBlock (key block : List Nat) : List Nat :=
  let ws := aesExpandKey key
  let st13 := aesRounds ws (xorBytes block (roundKeyBytes ws 0)) 13
  xorBytes (shiftRows (subWord st13)) (roundKeyBytes ws 14)

/-- The failures of the envelope layer: the explicit
`throw new Error("Invalid encrypted data format")` in `decrypt`, and the
`OperationError` the platform's AES-GCM decrypt raises on tag mismatch or
malformed ciphertext (the spec's `MalformedEnvelope` and
`AuthenticationFailed` respectively). -/
inductive CryptoError
  | invalidDataFormat
  | operationError
deriving DecidableEq

/-! ## GCM (NIST SP 800-38D)

The mode behind `crypto.subtle.encrypt/decrypt` with `AES-GCM`, with no
additional authenticated data and the full 16-byte tag, as the source
invokes it.  The block cipher is a parameter `E` so that the mode-level
lemmas hold for any block function; the envelope layer instantiates it with
`aes256EncryptBlock key`. -/

/-- The 16 big-endian bytes of a 128-bit value. -/
def nat128ToBytes (n : Nat) : List Nat :=
  (List.range 16).map (fun i => n / 256 ^ (15 - i) % 256)

/-- Multiplication in GF(2^128) with the GCM reduction polynomial
(SP 800-38D algorithm 1, scanning the bits of `x` most significant
first). -/
def gfMul (x y : Nat) : Nat :=
  ((List.range 128).foldl (fun zv i =>
    let z := if x / 2 ^ (127 - i) % 2 = 1 then zv.1 ^^^ zv.2 else zv.1
    let v := if zv.2 % 2 = 1 then zv.2 / 2 ^^^ 299076299051606071403356588563077529600 else zv.2 / 2
    (z, v)) ((0 : Nat), y)).1

/-- GHASH over a byte string with empty additional data: process the
zero-padded 16-byte blocks of `data`, then the length block. -/
def ghashBytes (h : Nat) (data : List Nat) : Nat :=
  let blocks := (chunks 16 (data ++ List.replicate ((16 - data.length % 16) % 16) 0)).map
      bytesToNatBE ++ [bytesToNatBE (u64BytesBE 0 ++ u64BytesBE (8 * data.length))]
  blocks.foldl (fun y b => gfMul (y ^^^ b) h) 0

/-- The pre-counter block `J0` for an initialisation vector: the 96-bit IV
is suffixed with `0^31 1`; other lengths go through GHASH. -/
def gcmJ0 (E : List Nat → List Nat) (iv : List Nat) : Nat :=
  if iv.length = 12 then bytesToNatBE iv * pow32 + 1
  else ghashBytes (bytesToNatBE (E (List.replicate 16 0))) iv

/-- Increment the low 32 bits of a 128-bit block. -/
def inc32 (n : Nat) : Nat :=
  n / pow32 * pow32 + (n + 1) % pow32

/-- Iterated `inc32`. -/
def inc32Iter (n : Nat) : Nat → Nat
  | 0 => n
  | k + 1 => inc32 (inc32Iter n k)

/-- The CTR keystream for `len` bytes, from counter blocks
`inc32(J0), inc32^2(J0), …`. -/
def keystream (E : List Nat → List Nat) (j0 len : Nat) : List Nat :=
  (((List.range ((len + 15) / 16)).map
    (fun i => E (nat128ToBytes (inc32Iter j0 (i + 1))))).flatten).take len

/-- The 16-byte GCM tag over ciphertext `ct`: `GHASH_H(ct) ⊕ E(J0)`. -/
def gcmTag (E : List Nat → List Nat) (j0 : Nat) (ct : List Nat) : List Nat :=
  xorBytes (nat128ToBytes (ghashBytes (bytesToNatBE (E (List.replicate 16 0))) ct))
    (E (nat128ToBytes j0))

/-- GCM authenticated encryption: `ciphertext ‖ tag`. -/
def gcmEncrypt (E : List Nat → List Nat) (iv pt : List Nat) : List Nat :=
  let j0 := gcmJ0 E iv
  let ct := xorBytes pt (keystream E j0 pt.length)
  ct ++ gcmTag E j0 ct

/-- GCM authenticated decryption: reject inputs shorter than the tag,
recompute the tag over the received ciphertext and compare, then undo the
keystream.  Failures carry the platform's `OperationError`. -/
def gcmDecrypt (E : List Nat → List Nat) (iv data : List Nat) :
    Except CryptoError (List Nat) :=
  if data.length < 16 then .error .operationError
  else
    let ct := data.take (data.length - 16)
    let tag := data.drop (data.length - 16)
    let j0 := gcmJ0 E iv
    if tag = gcmTag E j0 ct then .ok (xorBytes ct (keystream E j0 ct.length))
    else .error .operationError

/-! ## Envelope encryption

`deriveKey`, `encrypt` and `decrypt` from the crypto service
(`src/unnamed/part_002`, lines 120–188). -/

/-- One lower-case hex digit. -/
def hexDigitChar (n : Nat) : Char := "0123456789abcdef".toList.getD n '0'

/-- Lower-case hex rendering of a byte list; models
`Array.from(bytes).map(b => b.toString(16).padStart(2, '0')).join('')`. -/
def toHexChars (bytes : List Nat) : List Char :=
  bytes.flatMap (fun b => [hexDigitChar (b / 16 % 16), hexDigitChar (b % 16)])

/-- The value of one hex digit, either case (as `parseInt` base 16 accepts). -/
def hexCharVal (c : Char) : Option Nat :=
  match "0123456789abcdef".toList.indexOf? c with
  | some v => some v
  | none => "0123456789ABCDEF".toList.indexOf? c

/-- JavaScript `parseInt(chunk, 16)` on a 1–2 character chunk followed by a
`Uint8Array` store: the longest valid prefix is parsed, and a chunk with no
valid digit parses to `NaN`, which the typed array coerces to `0`. -/
def parseIntHexJS (chunk : List Char) : Nat :=
  match chunk with
  | [] => 0
  | c :: rest =>
    match hexCharVal c with
    | none => 0
    | some d =>
      match rest with
      | [] => d
      | c2 :: _ =>
        match hexCharVal c2 with
        | none => d
        | some d2 => 16 * d + d2

/-- `hex.match(/.{1,2}/g)!.map(b => parseInt(b, 16))` into a `Uint8Array`. -/
def parseHexJS (s : List Char) : List Nat :=
  (chunks 2 s).map parseIntHexJS

/-- Split a character list at every `:`; models
`String.prototype.split(':')`, which never returns an empty array and
keeps empty fields. -/
def splitOnColon : List Char → List (List Char)
  | [] => [[]]
  | c :: rest =>
    match splitOnColon rest with
    | [] => [[c]]
    | h :: t => if c = ':' then [] :: h :: t else (c :: h) :: t

/-- `deriveKey` from the crypto service: PBKDF2 with SHA-256 and 100,000
iterations over the UTF-8 bytes of the password and the given salt,
yielding the 32 bytes of a 256-bit AES-GCM key (one PBKDF2 block:
`U1 = HMAC(pw, salt ‖ 00000001)` followed by 99,999 further iterations,
all xored together). -/
def deriveKey (password : List Char) (salt : List Nat) : List Nat :=
  let pw := utf8Encode password
  let u1 := hmacSha256 pw (salt ++ [0, 0, 0, 1])
  pbkdf2Iter pw u1 u1 99999

/-- `encrypt` from the crypto service: AES-256-GCM over the UTF-8 bytes of
the plaintext under a 12-byte IV — the IV is an explicit argument here,
standing for the `crypto.getRandomValues(new Uint8Array(12))` draw the
source performs on every call — and the envelope text is
`hex(iv) : hex(ciphertext ‖ tag)`. -/
def encrypt (key : List Nat) (iv : List Nat) (data : List Char) : List Char :=
  toHexChars iv ++ ':' ::
    toHexChars (gcmEncrypt (aes256EncryptBlock key) iv (utf8Encode data))

/-- `decrypt` from the crypto service: split on `:` and take the first two
fields; throw the format error when the second field is absent or either
field is empty (the `!ivHex || !encryptedHex` guard); hex-parse both
fields with `parseInt` (which silently coerces invalid chunks, see
`parseIntHexJS`); AES-256-GCM decrypt-and-verify; decode the plaintext
bytes as UTF-8. -/
def decrypt (key : List Nat) (encryptedStr : List Char) :
    Except CryptoError (List Char) :=
  match splitOnColon encryptedStr with
  | [] => .error .invalidDataFormat
  | [_] => .error .invalidDataFormat
  | ivHex :: encryptedHex :: _ =>
    if ivHex = [] ∨ encryptedHex = [] then .error .invalidDataFormat
    else
      (gcmDecrypt (aes256EncryptBlock key) (parseHexJS ivHex)
        (parseHexJS encryptedHex)).map utf8Decode

/-! ## Encrypted account store

The storage service (`src/unnamed/part_002`, lines 1–119) over the
browser's `localStorage`, modelled as a partial map from string keys to
string values.  The JSON serialisations the source delegates to the
platform (`JSON.stringify` / `JSON.parse` of the user record and of the
account array) are modelled by an explicit length-prefixed text format;
spec section 6 requires of them only a round-trippable structured-text
encoding. -/

/-- The namespaced key/value persistence substrate (`localStorage`). -/
def Store : Type := List Char → Option (List Char)

/-- `localStorage.setItem`. -/
def Store.set (s : Store) (k v : List Char) : Store :=
  fun q => if q = k then some v else s q

/-- `localStorage.removeItem`. -/
def Store.remove (s : Store) (k : List Char) : Store :=
  fun q => if q = k then none else s q

/-- A store with no entries. -/
def Store.empty : Store := fun _ => none

/-- The account-blob key `totp-accounts-<email>`. -/
def getStorageKey (email : List Char) : List Char := "totp-accounts-".toList ++ email

/-- The user-record key `totp-user-<email>`. -/
def getUserKey (email : List Char) : List Char := "totp-user-".toList ++ email

/-- The stored user record: `{salt (hex), email}`. -/
structure UserData where
  salt : List Char
  email : List Char
deriving DecidableEq

/-- An account as persisted: `{id, issuer, name, secret, username?,
password?}` (`src/unnamed/part_001`). -/
structure Account where
  id : List Char
  issuer : List Char
  name : List Char
  secret : List Char
  username : Option (List Char)
  password : Option (List Char)
deriving DecidableEq

/-- Fuel-driven decimal digit characters (most significant first). -/
def decimalCharsFuel : Nat → Nat → List Char
  | 0, _ => []
  | _, 0 => []
  | fuel + 1, n => decimalCharsFuel fuel (n / 10) ++ [Char.ofNat (48 + n % 10)]

/-- Modelled from the spec (section 6: the serialised records are opaque
round-trippable structured text; the source delegates to the platform's
JSON): decimal digit characters of a length prefix. -/
def lengthChars (n : Nat) : List Char :=
  if n = 0 then ['0'] else decimalCharsFuel n n

/-- Modelled from the spec: length-prefixed encoding of one string field. -/
def encodeStr (s : List Char) : List Char :=
  lengthChars s.length ++ ':' :: s

/-- Modelled from the spec: encoding of an optional string field. -/
def encodeOptStr : Option (List Char) → List Char
  | none => ['N']
  | some s => 'S' :: encodeStr s

/-- Modelled from the spec: `JSON.stringify` of the `{salt, email}` user
record. -/
def serializeUserData (u : UserData) : List Char :=
  encodeStr u.salt ++ encodeStr u.email

/-- Modelled from the spec: read one length-prefixed field. -/
def parseStr (l : List Char) : Option (List Char × List Char) :=
  let ds := l.takeWhile Char.isDigit
  let rest := l.dropWhile Char.isDigit
  if ds = [] then none
  else
    match rest with
    | ':' :: r =>
      let n := ds.foldl (fun acc c => 10 * acc + (c.toNat - 48)) 0
      if n ≤ r.length then some (r.take n, r.drop n) else none
    | _ => none

/-- Modelled from the spec: `JSON.parse` of the user record together with
the source's shape validation (`typeof parsed.email === 'string' && …`);
any malformed input is `none`. -/
def parseUserData (l : List Char) : Option UserData := do
  let (salt, r1) ← parseStr l
  let (email, r2) ← parseStr r1
  if r2 = [] then some ⟨salt, email⟩ else none

/-- Modelled from the spec: read one optional string field. -/
def parseOptStr (l : List Char) : Option (Option (List Char) × List Char) :=
  match l with
  | 'N' :: r => some (none, r)
  | 'S' :: r => do
    let (s, r2) ← parseStr r
    some (some s, r2)
  | _ => none

/-- Modelled from the spec: `JSON.stringify` of the account array. -/
def serializeAccounts (accounts : List Account) : List Char :=
  lengthChars accounts.length ++ ':' ::
    accounts.flatMap (fun a =>
      encodeStr a.id ++ encodeStr a.issuer ++ encodeStr a.name ++
      encodeStr a.secret ++ encodeOptStr a.username ++ encodeOptStr a.password)

/-- Modelled from the spec: parse exactly `n` serialised accounts. -/
def parseAccountsN : Nat → List Char → Option (List Account)
  | 0, l => if l = [] then some [] else none
  | n + 1, l => do
    let (aid, r1) ← parseStr l
    let (issuer, r2) ← parseStr r1
    let (name, r3) ← parseStr r2
    let (secret, r4) ← parseStr r3
    let (username, r5) ← parseOptStr r4
    let (password, r6) ← parseOptStr r5
    let rest ← parseAccountsN n r6
    some (⟨aid, issuer, name, secret, username, password⟩ :: rest)

/-- Modelled from the spec: `JSON.parse` of the account array. -/
def parseAccounts (l : List Char) : Option (List Account) :=
  let ds := l.takeWhile Char.isDigit
  let rest := l.dropWhile Char.isDigit
  if ds = [] then none
  else
    match rest with
    | ':' :: r => parseAccountsN (ds.foldl (fun acc c => 10 * acc + (c.toNat - 48)) 0) r
    | _ => none

/-- `saveUser` (storage service): store the serialised `{salt, email}`
record under `totp-user-<email>`. -/
def saveUser (store : Store) (email saltHex : List Char) : Store :=
  store.set (getUserKey email) (serializeUserData ⟨saltHex, email⟩)

/-- `loadUser` (storage service): read and parse the user record;
malformed data yields `none`, as the source's validation and `try/catch`
arrange. -/
def loadUser (store : Store) (email : List Char) : Option UserData :=
  (store (getUserKey email)).bind parseUserData

/-- `userExists` (storage service):
`localStorage.getItem(getUserKey(email)) !== null`. -/
def userExists (store : Store) (email : List Char) : Bool :=
  (store (getUserKey email)).isSome

/-- `saveAccounts` (storage service): serialise, encrypt under the key
(with the given fresh IV) and overwrite the blob under
`totp-accounts-<email>`. -/
def saveAccounts (store : Store) (accounts : List Account) (key : List Nat)
    (email : List Char) (iv : List Nat) : Store :=
  store.set (getStorageKey email) (encrypt key iv (serializeAccounts accounts))

/-- The failures of `loadAccounts`: a decryption failure propagated from
`decrypt`, or decrypted text that does not deserialise as an account array
(`JSON.parse` throwing - the spec's `CorruptData`). -/
inductive LoadError
  | decryptFailed (e : CryptoError)
  | corruptData
deriving DecidableEq

/-- `loadAccounts` (storage service): a missing blob is an empty account
list, not an error; otherwise decrypt and deserialise. -/
def loadAccounts (store : Store) (key : List Nat) (email : List Char) :
    Except LoadError (List Account) :=
  match store (getStorageKey email) with
  | none => .ok []
  | some enc =>
    match decrypt key enc with
    | .error e => .error (.decryptFailed e)
    | .ok txt =>
      match parseAccounts txt with
      | some accounts => .ok accounts
      | none => .error .corruptData

/-- `updateUserEmail` (storage service, lines 87–108): refuse when a user
record already exists under the new email; otherwise move the user record
(rewriting its email field) and then the account blob to the new keys.
The possibly-updated store is returned alongside the boolean result. -/
def updateUserEmail (store : Store) (oldEmail newEmail : List Char) :
    Bool × Store :=
  if userExists store newEmail then (false, store)
  else
    let store1 :=
      match loadUser store oldEmail with
      | some u =>
        (store.set (getUserKey newEmail)
          (serializeUserData ⟨u.salt, newEmail⟩)).remove (getUserKey oldEmail)
      | none => store
    let store2 :=
      match store1 (getStorageKey oldEmail) with
      | some data =>
        (store1.set (getStorageKey newEmail) data).remove (getStorageKey oldEmail)
      | none => store1
    (true, store2)

/-- The failures of `handleChangePassword`. -/
inductive ChangePasswordError
  | userDataNotFound
  | currentPasswordIncorrect
deriving DecidableEq

/-- `handleChangePassword` from the application root
(`src/unnamed/part_005`, lines 121–144), for a logged-in user `email`
whose in-memory account list is `accounts`: load the user record, parse
its hex salt, verify the supplied current password by attempting
`loadAccounts` under a key derived from it and the stored salt, and only
on success derive the new key from the *same* salt, re-encrypt the
in-memory list (under the fresh IV `iv`) and persist it.  The store is
threaded explicitly; the read-only verification steps leave it
untouched, and the new master key is returned on success. -/
def handleChangePassword (store : Store) (email : List Char)
    (accounts : List Account) (currentPassword newPassword : List Char)
    (iv : List Nat) : Store × Except ChangePasswordError (List Nat) :=
  match loadUser store email with
  | none => (store, .error .userDataNotFound)
  | some u =>
    let salt := parseHexJS u.salt
    match loadAccounts store (deriveKey currentPassword salt) email with
    | .error _ => (store, .error .currentPasswordIncorrect)
    | .ok _ =>
      let newKey := deriveKey newPassword salt
      (saveAccounts store accounts newKey email iv, .ok newKey)

/-! ## Migration import -/

/-- One decoded `OtpParameters` sub-message of the migration payload (the
protobuf schema declared in `AddAccountModal.tsx`, decoded by the external
protobuf library). -/
structure OtpParameters where
  secret : List Nat
  name : List Char
  issuer : List Char
  algorithm : Nat
  digits : Nat
  otpType : Nat
  counter : Nat
deriving DecidableEq

/-- A new account as assembled by the bulk import (`Omit<Account, 'id'>`
with neither username nor password). -/
structure NewAccount where
  secret : List Char
  name : List Char
  issuer : List Char
deriving DecidableEq

/-- The failure of the bulk migration branch when zero sub-messages
decode. -/
inductive MigrationError
  | emptyMigrationPayload
deriving DecidableEq

/-- The bulk branch of `handleQrScan` (`AddAccountModal.tsx`, lines
86–121) after the external Base64/protobuf decode has produced the
`otpParameters` list: fail when no sub-message decoded, otherwise map
each sub-message to an account whose secret is the Base32 re-encoding of
the raw secret bytes, with the source's `param.name || ''` and
`param.issuer || param.name || ''` fallbacks. -/
def migrationAccounts (params : List OtpParameters) :
    Except MigrationError (List NewAccount) :=
  if params.length = 0 then .error .emptyMigrationPayload
  else .ok (params.map (fun p =>
    { secret := bytesToBase32 p.secret
      name := p.name
      issuer := if p.issuer = [] then p.name else p.issuer }))

/-! ### End of definitions -/

/-! ## Lemmas: bits and chunks -/

theorem length_natToBits (w n : Nat) : (natToBits w n).length = w := by
  induction w generalizing n with
  | zero => rfl
  | succ w ih => simp [natToBits, ih]

theorem bitsToNat_append_singleton (l : List Bool) (b : Bool) :
    bitsToNat (l ++ [b]) = 2 * bitsToNat l + (if b then 1 else 0) := by
  simp [bitsToNat, List.foldl_append]

theorem bitsToNat_natToBits {w n : Nat} (h : n < 2 ^ w) :
    bitsToNat (natToBits w n) = n := by
  induction w generalizing n with
  | zero => simp [pow_zero] at h; simp [natToBits, bitsToNat, h]
  | succ w ih =>
    rw [pow_succ] at h
    rw [natToBits, bitsToNat_append_singleton, ih (by omega)]
    rcases Nat.mod_two_eq_zero_or_one n with h2 | h2 <;> simp [h2] <;> omega

theorem bitsToNat_lt (l : List Bool) : bitsToNat l < 2 ^ l.length := by
  induction l using List.reverseRecOn with
  | nil => simp [bitsToNat]
  | append_singleton l b ih =>
    rw [bitsToNat_append_singleton]
    simp only [List.length_append, List.length_singleton, pow_succ]
    cases b <;> simp <;> omega

theorem natToBits_bitsToNat {l : List Bool} {w : Nat} (h : l.length = w) :
    natToBits w (bitsToNat l) = l := by
  induction l using List.reverseRecOn generalizing w with
  | nil => simp at h; simp [← h, natToBits]
  | append_singleton l b ih =>
    simp only [List.length_append, List.length_singleton] at h
    subst h
    rw [natToBits, bitsToNat_append_singleton]
    have h2 : (2 * bitsToNat l + (if b then 1 else 0)) / 2 = bitsToNat l := by
      cases b
      · show (2 * bitsToNat l + 0) / 2 = bitsToNat l
        omega
      · show (2 * bitsToNat l + 1) / 2 = bitsToNat l
        omega
    rw [h2, ih rfl]
    cases b
    · have hdec : decide ((2 * bitsToNat l + 0) % 2 = 1) = false := by
        rw [decide_eq_false_iff_not]
        omega
      show l ++ [decide ((2 * bitsToNat l + 0) % 2 = 1)] = l ++ [false]
      rw [hdec]
    · have hdec : decide ((2 * bitsToNat l + 1) % 2 = 1) = true := by
        rw [decide_eq_true_eq]
        omega
      show l ++ [decide ((2 * bitsToNat l + 1) % 2 = 1)] = l ++ [true]
      rw [hdec]

theorem chunksFuel_congr {α : Type _} (k : Nat) (hk : 1 ≤ k) :
    ∀ (f1 : Nat) (l : List α) (f2 : Nat), l.length ≤ f1 → l.length ≤ f2 →
      chunksFuel k f1 l = chunksFuel k f2 l := by
  intro f1
  induction f1 with
  | zero =>
    intro l f2 h1 _
    have : l = [] := List.eq_nil_of_length_eq_zero (by omega)
    subst this
    cases f2 <;> rfl
  | succ f1 ih =>
    intro l f2 h1 h2
    cases l with
    | nil => cases f2 <;> rfl
    | cons a l =>
      simp only [List.length_cons] at h1 h2
      cases f2 with
      | zero => omega
      | succ f2 =>
        simp only [chunksFuel]
        rw [ih _ f2 (by simp [List.length_drop]; omega) (by simp [List.length_drop]; omega)]

theorem chunks_cons_eq {α : Type _} (k : Nat) (hk : 1 ≤ k) (l : List α) (hl : l ≠ []) :
    chunks k l = l.take k :: chunks k (l.drop k) := by
  cases l with
  | nil => exact absurd rfl hl
  | cons a l =>
    show chunksFuel k (a :: l).length (a :: l) = _
    simp only [List.length_cons, chunksFuel]
    rw [chunksFuel_congr k hk _ _ ((a :: l).drop k).length
      (by simp [List.length_drop]; omega) le_rfl]
    rfl

theorem chunks_join_of_length {α : Type _} (k : Nat) (hk : 1 ≤ k) :
    ∀ cs : List (List α), (∀ c ∈ cs, c.length = k) → chunks k cs.flatten = cs := by
  intro cs
  induction cs with
  | nil => intro _; rfl
  | cons c cs ih =>
    intro h
    have hc : c.length = k := h c (by simp)
    have hcne : (c :: cs).flatten ≠ [] := by
      simp only [List.flatten_cons]
      intro hcontra
      have := List.append_eq_nil.mp hcontra
      have : c.length = 0 := by rw [this.1]; rfl
      omega
    rw [chunks_cons_eq k hk _ hcne]
    simp only [List.flatten_cons]
    rw [← hc, List.take_left, List.drop_left]
    rw [hc, ih (fun x hx => h x (by simp [hx]))]

theorem chunks_spec_of_dvd {α : Type _} (k : Nat) (hk : 1 ≤ k) :
    ∀ (l : List α), k ∣ l.length →
      (∀ c ∈ chunks k l, c.length = k) ∧ (chunks k l).flatten = l := by
  suffices H : ∀ (n : Nat) (l : List α), l.length = n → k ∣ l.length →
      (∀ c ∈ chunks k l, c.length = k) ∧ (chunks k l).flatten = l by
    intro l h
    exact H l.length l rfl h
  intro n
  induction n using Nat.strong_induction_on with
  | _ n ih =>
    intro l hn hdvd
    cases l with
    | nil => simp [chunks, chunksFuel]
    | cons a t =>
      rw [chunks_cons_eq k hk _ (by simp)]
      have hklen : k ≤ (a :: t).length := by
        rcases hdvd with ⟨m, hm⟩
        have : m ≠ 0 := by rintro rfl; simp at hm
        calc k ≤ k * m := Nat.le_mul_of_pos_right k (by omega)
        _ = (a :: t).length := hm.symm
      have hdrop : ((a :: t).drop k).length = (a :: t).length - k := by
        simp [List.length_drop]
      have hlt : ((a :: t).drop k).length < n := by
        rw [hdrop]
        simp only [List.length_cons] at hn ⊢
        omega
      have hrec := ih ((a :: t).drop k).length hlt
        ((a :: t).drop k) rfl (by rw [hdrop]; exact Nat.dvd_sub' hdvd dvd_rfl)
      refine ⟨?_, ?_⟩
      · intro c hc
        rcases List.mem_cons.mp hc with rfl | hc
        · rw [List.length_take]
          simp only [List.length_cons] at hklen ⊢
          omega
        · exact hrec.1 c hc
      · simp only [List.flatten_cons, hrec.2, List.take_append_drop]

theorem length_flatMap_const {α β : Type _} {f : β → List α} (k : Nat) (l : List β)
    (h : ∀ x ∈ l, (f x).length = k) : (l.flatMap f).length = k * l.length := by
  induction l with
  | nil => simp
  | cons a l ih =>
    simp only [List.flatMap_cons, List.length_append, List.length_cons,
      ih (fun x hx => h x (by simp [hx])), h a (by simp)]
    ring

theorem filterMap_eq_map_of {α β : Type _} {f : α → Option β} {g : α → β}
    (l : List α) (h : ∀ x ∈ l, f x = some (g x)) : l.filterMap f = l.map g := by
  induction l with
  | nil => rfl
  | cons a l ih =>
    rw [List.filterMap_cons, h a (by simp), List.map_cons,
      ih (fun x hx => h x (by simp [hx]))]

theorem mapM_ok_of {ε α β : Type _} {f : α → Except ε β} {g : α → β}
    (l : List α) (h : ∀ x ∈ l, f x = .ok (g x)) : l.mapM f = .ok (l.map g) := by
  induction l with
  | nil => rfl
  | cons a l ih =>
    rw [List.mapM_cons, h a (by simp), List.map_cons]
    have := ih (fun x hx => h x (by simp [hx]))
    simp only [bind, Except.bind, this]
    rfl

/-! ## Lemmas: Base32 -/

theorem alphabet_toUpper_getD : ∀ v, v < 32 →
    Char.toUpper (base32Chars.getD v 'A') = base32Chars.getD v 'A' := by decide

theorem alphabet_indexOf_getD : ∀ v, v < 32 →
    base32Chars.indexOf? (base32Chars.getD v 'A') = some v := by decide

theorem alphabet_getD_ne_pad : ∀ v, v < 32 → base32Chars.getD v 'A' ≠ '=' := by decide

theorem stripTrailingPadding_eq_self {s : List Char} (h : ∀ c ∈ s, c ≠ '=') :
    stripTrailingPadding s = s := by
  unfold stripTrailingPadding
  cases hrev : s.reverse with
  | nil =>
    simp only [List.dropWhile_nil, List.reverse_nil]
    exact (List.reverse_eq_nil_iff.mp hrev).symm
  | cons c t =>
    have hc : c ∈ s := by
      rw [← List.mem_reverse, hrev]
      simp
    rw [List.dropWhile_cons_of_neg (by simpa using h c hc), ← hrev, List.reverse_reverse]

theorem mapM_map_ok_of {ε α β γ : Type _} {e : α → β} {f : β → Except ε γ} {g : α → γ}
    (l : List α) (h : ∀ x ∈ l, f (e x) = .ok (g x)) :
    (l.map e).mapM f = .ok (l.map g) := by
  induction l with
  | nil => rfl
  | cons a l ih =>
    rw [List.map_cons, List.mapM_cons, h a (by simp), List.map_cons]
    have := ih (fun x hx => h x (by simp [hx]))
    simp only [bind, Except.bind, this]
    rfl

/-- Unfolding of `base32ToBytes` once the symbol-mapping pass is known to
succeed with values `vals`. -/
theorem base32ToBytes_of_mapM_ok {s : List Char} {vals : List Nat}
    (h : (stripTrailingPadding (s.map Char.toUpper)).mapM
        (fun c => match base32Chars.indexOf? c with
          | some v => Except.ok v
          | none => Except.error Base32Error.invalidCharacter) = .ok vals) :
    base32ToBytes s =
      match chunks 8 (vals.flatMap (natToBits 5)) with
      | [] => Except.error Base32Error.nullMatchTypeError
      | groups => Except.ok ((groups.map bitsToNat).take
          ((vals.flatMap (natToBits 5)).length / 8)) := by
  unfold base32ToBytes
  rw [h]
  rfl

/-- The Base32 round trip on byte lists whose length is a positive multiple
of five: the bit string splits exactly into 5-bit chunks, every emitted
symbol decodes back to its 5-bit value, and regrouping into 8-bit chunks
recovers the original bytes. -/
theorem base32_roundtrip_aux (b : List Nat) (hb : ∀ x ∈ b, x < 256)
    (h5 : b.length % 5 = 0) (hne : b ≠ []) :
    base32ToBytes (bytesToBase32 b) = .ok b := by
  set bits0 := b.flatMap (natToBits 8) with hb0
  set cs := chunks 5 bits0 with hcs
  set enc := fun c => base32Chars.getD (bitsToNat c) 'A' with hencf
  have hbits : bits0 = (b.map (natToBits 8)).flatten := by
    simp [hb0, List.flatMap_def]
  have hlen : bits0.length = 8 * b.length :=
    length_flatMap_const 8 b (fun x _ => length_natToBits 8 x)
  have h5d : (5 : Nat) ∣ bits0.length := by
    rw [hlen]
    exact Dvd.dvd.mul_left (Nat.dvd_of_mod_eq_zero h5) 8
  obtain ⟨hc5len, hc5join⟩ := chunks_spec_of_dvd 5 (by omega) bits0 h5d
  have hvals : ∀ c ∈ cs, bitsToNat c < 32 := by
    intro c hc
    have := bitsToNat_lt c
    rw [hc5len c hc] at this
    simpa using this
  have henc : bytesToBase32 b = cs.map enc := by
    unfold bytesToBase32
    exact filterMap_eq_map_of _ (fun c hc => by rw [if_pos (hc5len c hc)])
  have hupper : (cs.map enc).map Char.toUpper = cs.map enc := by
    rw [List.map_map]
    exact List.map_congr_left (fun c hc => alphabet_toUpper_getD _ (hvals c hc))
  have hstrip : stripTrailingPadding (cs.map enc) = cs.map enc := by
    apply stripTrailingPadding_eq_self
    intro ch hch
    rw [List.mem_map] at hch
    rcases hch with ⟨c, hc, rfl⟩
    exact alphabet_getD_ne_pad _ (hvals c hc)
  have hmapM : ((cs.map enc).map Char.toUpper |> stripTrailingPadding).mapM
      (fun c => match base32Chars.indexOf? c with
        | some v => Except.ok v
        | none => Except.error Base32Error.invalidCharacter) = .ok (cs.map bitsToNat) := by
    rw [hupper, hstrip]
    apply mapM_map_ok_of
    intro c hc
    rw [hencf, alphabet_indexOf_getD _ (hvals c hc)]
  have hbits2 : (cs.map bitsToNat).flatMap (natToBits 5) = bits0 := by
    rw [List.flatMap_def, List.map_map]
    have hid : cs.map (natToBits 5 ∘ bitsToNat) = cs := by
      rw [show cs.map (natToBits 5 ∘ bitsToNat) = cs.map id from
        List.map_congr_left (fun c hc => natToBits_bitsToNat (hc5len c hc)), List.map_id]
    rw [hid]
    exact hc5join
  have hch8 : chunks 8 bits0 = b.map (natToBits 8) := by
    rw [hbits]
    exact chunks_join_of_length 8 (by omega) _ (by
      intro c hc
      rw [List.mem_map] at hc
      rcases hc with ⟨x, _, rfl⟩
      exact length_natToBits 8 x)
  rw [henc, base32ToBytes_of_mapM_ok hmapM, hbits2, hch8]
  obtain ⟨g0, gs, hgs⟩ := List.exists_cons_of_ne_nil
    (show b.map (natToBits 8) ≠ [] by simpa using hne)
  rw [hgs]
  show Except.ok (((g0 :: gs).map bitsToNat).take (bits0.length / 8)) = Except.ok b
  rw [← hgs, List.map_map]
  have hidb : b.map (bitsToNat ∘ natToBits 8) = b := by
    rw [show b.map (bitsToNat ∘ natToBits 8) = b.map id from
      List.map_congr_left (fun x hx => bitsToNat_natToBits (by
        have := hb x hx
        omega)), List.map_id]
  rw [hidb, hlen]
  rw [Nat.mul_div_cancel_left _ (by omega), List.take_length]

/-! ## Lemmas: SHA-1 output shape and the HOTP refinement -/

theorem getD_lt_of_forall {l : List Nat} (h : ∀ y ∈ l, y < 256) (i : Nat) :
    l.getD i 0 < 256 := by
  by_cases hi : i < l.length
  · rw [List.getD_eq_getElem l 0 hi]
    exact h _ (List.getElem_mem hi)
  · rw [List.getD_eq_default l 0 (by omega)]
    omega

theorem u32BytesBE_length (n : Nat) : (u32BytesBE n).length = 4 := rfl

theorem u32BytesBE_lt (n : Nat) : ∀ x ∈ u32BytesBE n, x < 256 := by
  intro x hx
  have hm : n % pow32 < 4294967296 := Nat.mod_lt _ (by decide)
  simp only [u32BytesBE, pow32, List.mem_cons, List.not_mem_nil, or_false] at hx hm
  rcases hx with rfl | rfl | rfl | rfl <;> omega

theorem sha1Compress_length (h block : List Nat) : (sha1Compress h block).length = 5 := by
  unfold sha1Compress
  rcases (List.range 80).foldl (sha1Round (sha1ExtendW ((chunks 4 block).map bytesToNatBE) 64))
    (h.getD 0 0, h.getD 1 0, h.getD 2 0, h.getD 3 0, h.getD 4 0) with ⟨a, b, c, d, e⟩
  rfl

theorem foldl_sha1Compress_length (blocks : List (List Nat)) (h0 : List Nat)
    (hh : h0.length = 5) : (blocks.foldl sha1Compress h0).length = 5 := by
  induction blocks generalizing h0 with
  | nil => exact hh
  | cons b bs ih => exact ih _ (sha1Compress_length h0 b)

theorem sha1_length (msg : List Nat) : (sha1 msg).length = 20 := by
  unfold sha1
  rw [length_flatMap_const 4 _ (fun x _ => u32BytesBE_length x)]
  rw [foldl_sha1Compress_length _ _ (by rfl)]

theorem sha1_lt (msg : List Nat) : ∀ x ∈ sha1 msg, x < 256 := by
  intro x hx
  unfold sha1 at hx
  rw [List.mem_flatMap] at hx
  rcases hx with ⟨w, _, hxw⟩
  exact u32BytesBE_lt w x hxw

theorem hmacSha1_length (key msg : List Nat) : (hmacSha1 key msg).length = 20 :=
  sha1_length _

theorem hmacSha1_lt (key msg : List Nat) : ∀ x ∈ hmacSha1 key msg, x < 256 :=
  sha1_lt _

theorem u32BytesBE_mod (n : Nat) : u32BytesBE (n % pow32) = u32BytesBE n := by
  unfold u32BytesBE
  rw [Nat.mod_mod_of_dvd _ dvd_rfl]

theorem counterBytes_eq_u64BytesBE (counter : Nat) :
    counterBytes counter = u64BytesBE counter := by
  unfold counterBytes u64BytesBE
  rw [show (4294967296 : Nat) = pow32 from rfl, u32BytesBE_mod]

theorem getLastD_eq_getD (l : List Nat) : ∀ d : Nat,
    l.getLastD d = l.getD (l.length - 1) d := by
  induction l with
  | nil => intro d; rfl
  | cons a t ih =>
    intro d
    cases t with
    | nil => rfl
    | cons b t2 =>
      rw [List.getLastD_cons, ih a]
      have hidx : (b :: t2).length - 1 = t2.length := by simp
      have hgd : (b :: t2).getD t2.length a = (b :: t2).getD t2.length d := by
        rw [List.getD_eq_getElem _ a (by simp), List.getD_eq_getElem _ d (by simp)]
      rw [hidx, hgd]
      have hidx2 : (a :: b :: t2).length - 1 = t2.length + 1 := by simp
      rw [hidx2, List.getD_cons_succ]

/-- The refinement of `generateHOTP` by the specification's RFC 4226
description: the two-halves big-endian counter encoding agrees with the
direct 8-byte encoding, and the byte masks `& 0xFF` are identities on the
digest bytes. -/
theorem generateHOTP_eq_rfcHotp (secret : List Char) (counter : Nat)
    (_hc : counter < 2 ^ 64) : generateHOTP secret counter = rfcHotp secret counter := by
  cases hdec : base32ToBytes secret with
  | error e => simp only [generateHOTP, rfcHotp, hdec, bind, Except.bind]
  | ok key =>
    simp only [generateHOTP, rfcHotp, hdec, bind, Except.bind]
    rw [counterBytes_eq_u64BytesBE]
    have hlen := hmacSha1_length key (u64BytesBE counter)
    have hlt := hmacSha1_lt key (u64BytesBE counter)
    rw [getLastD_eq_getD, hlen]
    have hmask : ∀ i : Nat, (hmacSha1 key (u64BytesBE counter)).getD i 0 % 256 =
        (hmacSha1 key (u64BytesBE counter)).getD i 0 := fun i =>
      Nat.mod_eq_of_lt (getD_lt_of_forall hlt i)
    rw [hmask, hmask, hmask]

/-! ## Lemmas: shapes and bounds of the cipher components -/

theorem xor_lt_256 {a b : Nat} (ha : a < 256) (hb : b < 256) : a ^^^ b < 256 := by
  have h8a : a < 2 ^ 8 := by simpa using ha
  have h8b : b < 2 ^ 8 := by simpa using hb
  have h := Nat.xor_lt_two_pow h8a h8b
  simpa using h

theorem xorBytes_length (a b : List Nat) :
    (xorBytes a b).length = min a.length b.length := by
  simp [xorBytes]

theorem xorBytes_lt : ∀ (a b : List Nat), (∀ x ∈ a, x < 256) →
    (∀ x ∈ b, x < 256) → ∀ x ∈ xorBytes a b, x < 256 := by
  intro a
  induction a with
  | nil => intro b _ _ x hx; simp [xorBytes] at hx
  | cons a0 as ih =>
    intro b ha hb x hx
    cases b with
    | nil => simp [xorBytes] at hx
    | cons b0 bs =>
      simp only [xorBytes, List.zipWith_cons_cons, List.mem_cons] at hx
      rcases hx with rfl | hx
      · exact xor_lt_256 (ha a0 (by simp)) (hb b0 (by simp))
      · exact ih bs (fun y hy => ha y (by simp [hy])) (fun y hy => hb y (by simp [hy])) x hx

theorem xorBytes_cancel : ∀ (a b : List Nat), a.length ≤ b.length →
    xorBytes (xorBytes a b) b = a := by
  intro a
  induction a with
  | nil => intro b _; rfl
  | cons a0 as ih =>
    intro b hab
    cases b with
    | nil => simp at hab
    | cons b0 bs =>
      simp only [xorBytes, List.zipWith_cons_cons]
      rw [Nat.xor_cancel_right]
      have := ih bs (by simpa using hab)
      simp only [xorBytes] at this
      rw [this]

theorem nat128ToBytes_length (n : Nat) : (nat128ToBytes n).length = 16 := by
  simp [nat128ToBytes]

theorem nat128ToBytes_lt (n : Nat) : ∀ x ∈ nat128ToBytes n, x < 256 := by
  intro x hx
  simp only [nat128ToBytes, List.mem_map] at hx
  rcases hx with ⟨i, _, rfl⟩
  exact Nat.mod_lt _ (by omega)

theorem sbox_getD_lt (b : Nat) : sbox.getD b 0 < 256 :=
  getD_lt_of_forall (by decide) b

theorem subWord_length (w : List Nat) : (subWord w).length = w.length := by
  simp [subWord]

theorem subWord_lt (w : List Nat) : ∀ x ∈ subWord w, x < 256 := by
  intro x hx
  simp only [subWord, List.mem_map] at hx
  rcases hx with ⟨b, _, rfl⟩
  exact sbox_getD_lt b

theorem rotWord_length (w : List Nat) : (rotWord w).length = w.length := by
  simp [rotWord]
  omega

theorem rotWord_lt {w : List Nat} (h : ∀ x ∈ w, x < 256) :
    ∀ x ∈ rotWord w, x < 256 := by
  intro x hx
  rcases List.mem_append.mp hx with hx | hx
  · exact h x (List.mem_of_mem_drop hx)
  · exact h x (List.mem_of_mem_take hx)

theorem rcon_lt (j : Nat) : rcon j < 256 :=
  getD_lt_of_forall (by decide) (j - 1)

theorem xorRcon_length (w : List Nat) (r : Nat) : (xorRcon w r).length = w.length := by
  cases w <;> simp [xorRcon]

theorem xorRcon_lt {w : List Nat} (hw : ∀ x ∈ w, x < 256) {r : Nat} (hr : r < 256) :
    ∀ x ∈ xorRcon w r, x < 256 := by
  cases w with
  | nil => intro x hx; simp [xorRcon] at hx
  | cons t rest =>
    intro x hx
    simp only [xorRcon, List.mem_cons] at hx
    rcases hx with rfl | hx
    · exact xor_lt_256 (hw t (by simp)) hr
    · exact hw x (by simp [hx])

/-- The invariant of the AES key schedule: a word is four bytes. -/
def GoodWord (w : List Nat) : Prop := w.length = 4 ∧ ∀ x ∈ w, x < 256

theorem goodWord_getD {ws : List (List Nat)} (h : ∀ w ∈ ws, GoodWord w)
    (i : Nat) (hi : i < ws.length) : GoodWord (ws.getD i []) := by
  rw [List.getD_eq_getElem ws [] hi]
  exact h _ (List.getElem_mem hi)

theorem goodWord_subWord {w : List Nat} (h : GoodWord w) : GoodWord (subWord w) :=
  ⟨by rw [subWord_length, h.1], subWord_lt w⟩

theorem goodWord_rotWord {w : List Nat} (h : GoodWord w) : GoodWord (rotWord w) :=
  ⟨by rw [rotWord_length, h.1], rotWord_lt h.2⟩

theorem goodWord_xorRcon {w : List Nat} (h : GoodWord w) {r : Nat} (hr : r < 256) :
    GoodWord (xorRcon w r) :=
  ⟨by rw [xorRcon_length, h.1], xorRcon_lt h.2 hr⟩

theorem goodWord_xorBytes {a b : List Nat} (ha : GoodWord a) (hb : GoodWord b) :
    GoodWord (xorBytes a b) :=
  ⟨by rw [xorBytes_length, ha.1, hb.1]; rfl, xorBytes_lt a b ha.2 hb.2⟩

theorem aesExpandWords_length (ws : List (List Nat)) (n : Nat) :
    (aesExpandWords ws n).length = ws.length + n := by
  induction n with
  | zero => rfl
  | succ n ih =>
    show (aesExpandWords ws n ++ [_]).length = ws.length + (n + 1)
    rw [List.length_append, ih]
    rfl

theorem aesExpandWords_good (ws : List (List Nat)) (hne : ws ≠ [])
    (h : ∀ w ∈ ws, GoodWord w) (n : Nat) :
    ∀ w ∈ aesExpandWords ws n, GoodWord w := by
  induction n with
  | zero => exact h
  | succ n ih =>
    intro w hw
    have hlen := aesExpandWords_length ws n
    have hpos : 0 < (aesExpandWords ws n).length := by
      rw [hlen]
      have := List.length_pos.mpr hne
      omega
    rcases List.mem_append.mp hw with hw | hw
    · exact ih w hw
    · have htemp : GoodWord ((aesExpandWords ws n).getD
          ((aesExpandWords ws n).length - 1) []) :=
        goodWord_getD ih _ (by omega)
      have h8 : GoodWord ((aesExpandWords ws n).getD
          ((aesExpandWords ws n).length - 8) []) :=
        goodWord_getD ih _ (by omega)
      have htemp2 : GoodWord (if (aesExpandWords ws n).length % 8 = 0 then
          xorRcon (subWord (rotWord ((aesExpandWords ws n).getD
            ((aesExpandWords ws n).length - 1) [])))
            (rcon ((aesExpandWords ws n).length / 8))
        else if (aesExpandWords ws n).length % 8 = 4 then
          subWord ((aesExpandWords ws n).getD ((aesExpandWords ws n).length - 1) [])
        else (aesExpandWords ws n).getD ((aesExpandWords ws n).length - 1) []) := by
        split_ifs
        · exact goodWord_xorRcon (goodWord_subWord (goodWord_rotWord htemp)) (rcon_lt _)
        · exact goodWord_subWord htemp
        · exact htemp
      rw [List.mem_singleton.mp hw]
      exact goodWord_xorBytes h8 htemp2

theorem length_flatten_const {α : Type _} (k : Nat) (cs : List (List α))
    (h : ∀ c ∈ cs, c.length = k) : cs.flatten.length = k * cs.length := by
  rw [← List.flatMap_id]
  exact length_flatMap_const k cs h

theorem aesExpandKey_good (key : List Nat) (hk : key.length = 32)
    (hkb : ∀ x ∈ key, x < 256) :
    (aesExpandKey key).length = 60 ∧ ∀ w ∈ aesExpandKey key, GoodWord w := by
  have hdvd : (4 : Nat) ∣ key.length := by rw [hk]; exact ⟨8, rfl⟩
  obtain ⟨hlen4, hjoin⟩ := chunks_spec_of_dvd 4 (by omega) key hdvd
  have hgood : ∀ w ∈ chunks 4 key, GoodWord w := by
    intro w hw
    refine ⟨hlen4 w hw, ?_⟩
    intro x hx
    apply hkb
    rw [← hjoin]
    exact List.mem_flatten.mpr ⟨w, hw, hx⟩
  have hne : chunks 4 key ≠ [] := by
    intro hcon
    have : key = [] := by rw [← hjoin, hcon]; rfl
    rw [this] at hk
    simp at hk
  have hcnt : (chunks 4 key).length = 8 := by
    have := length_flatten_const 4 (chunks 4 key) hlen4
    rw [hjoin, hk] at this
    omega
  refine ⟨?_, aesExpandWords_good _ hne hgood 52⟩
  show (aesExpandWords (chunks 4 key) 52).length = 60
  rw [aesExpandWords_length, hcnt]

theorem roundKeyBytes_spec {ws : List (List Nat)} (hlen : ws.length = 60)
    (hg : ∀ w ∈ ws, GoodWord w) {r : Nat} (hr : r ≤ 14) :
    (roundKeyBytes ws r).length = 16 ∧ ∀ x ∈ roundKeyBytes ws r, x < 256 := by
  constructor
  · show ((ws.drop (4 * r)).take 4).flatten.length = 16
    have hcnt : ((ws.drop (4 * r)).take 4).length = 4 := by
      rw [List.length_take, List.length_drop, hlen]
      omega
    rw [length_flatten_const 4 _
      (fun c hc => (hg c (List.mem_of_mem_drop (List.mem_of_mem_take hc))).1), hcnt]
  · intro x hx
    rcases List.mem_flatten.mp hx with ⟨c, hc, hxc⟩
    exact (hg c (List.mem_of_mem_drop (List.mem_of_mem_take hc))).2 x hxc

theorem shiftRows_length (s : List Nat) : (shiftRows s).length = 16 := rfl

theorem shiftRows_lt {s : List Nat} (h : ∀ x ∈ s, x < 256) :
    ∀ x ∈ shiftRows s, x < 256 := by
  intro x hx
  simp only [shiftRows, List.mem_cons, List.not_mem_nil, or_false] at hx
  rcases hx with rfl|rfl|rfl|rfl|rfl|rfl|rfl|rfl|rfl|rfl|rfl|rfl|rfl|rfl|rfl|rfl <;>
    exact getD_lt_of_forall h _

theorem xtime_lt {b : Nat} (h : b < 256) : xtime b < 256 := by
  unfold xtime
  split_ifs with h1
  · omega
  · exact xor_lt_256 (Nat.mod_lt _ (by omega)) (by omega)

theorem mixColumn_length (c : List Nat) : (mixColumn c).length = 4 := rfl

theorem mixColumn_lt {c : List Nat} (h : ∀ x ∈ c, x < 256) :
    ∀ x ∈ mixColumn c, x < 256 := by
  have h0 := getD_lt_of_forall h 0
  have h1 := getD_lt_of_forall h 1
  have h2 := getD_lt_of_forall h 2
  have h3 := getD_lt_of_forall h 3
  intro x hx
  simp only [mixColumn, List.mem_cons, List.not_mem_nil, or_false] at hx
  rcases hx with rfl | rfl | rfl | rfl
  · exact xor_lt_256 (xor_lt_256 (xor_lt_256 (xtime_lt h0) (xor_lt_256 (xtime_lt h1) h1)) h2) h3
  · exact xor_lt_256 (xor_lt_256 (xor_lt_256 h0 (xtime_lt h1)) (xor_lt_256 (xtime_lt h2) h2)) h3
  · exact xor_lt_256 (xor_lt_256 (xor_lt_256 h0 h1) (xtime_lt h2)) (xor_lt_256 (xtime_lt h3) h3)
  · exact xor_lt_256 (xor_lt_256 (xor_lt_256 (xor_lt_256 (xtime_lt h0) h0) h1) h2) (xtime_lt h3)

theorem mixColumns_spec {s : List Nat} (hlen : s.length = 16)
    (hb : ∀ x ∈ s, x < 256) :
    (mixColumns s).length = 16 ∧ ∀ x ∈ mixColumns s, x < 256 := by
  have hdvd : (4 : Nat) ∣ s.length := by rw [hlen]; exact ⟨4, rfl⟩
  obtain ⟨hc, hj⟩ := chunks_spec_of_dvd 4 (by omega) s hdvd
  constructor
  · show ((chunks 4 s).flatMap mixColumn).length = 16
    rw [length_flatMap_const 4 _ (fun c _ => mixColumn_length c)]
    have := length_flatten_const 4 (chunks 4 s) hc
    rw [hj, hlen] at this
    omega
  · intro x hx
    rcases List.mem_flatMap.mp hx with ⟨c, hcm, hxc⟩
    refine mixColumn_lt ?_ x hxc
    intro y hy
    apply hb
    rw [← hj]
    exact List.mem_flatten.mpr ⟨c, hcm, hy⟩

theorem aesRounds_spec {ws : List (List Nat)} (hlen : ws.length = 60)
    (hg : ∀ w ∈ ws, GoodWord w) (st : List Nat) (hst : st.length = 16)
    (hstb : ∀ x ∈ st, x < 256) : ∀ n, n ≤ 13 →
    (aesRounds ws st n).length = 16 ∧ ∀ x ∈ aesRounds ws st n, x < 256 := by
  intro n
  induction n with
  | zero => intro _; exact ⟨hst, hstb⟩
  | succ n ih =>
    intro hn
    obtain ⟨ihl, ihb⟩ := ih (by omega)
    have hsublen : (subWord (aesRounds ws st n)).length = 16 := by
      rw [subWord_length, ihl]
    have hsh : ∀ x ∈ shiftRows (subWord (aesRounds ws st n)), x < 256 :=
      shiftRows_lt (subWord_lt _)
    obtain ⟨hml, hmb⟩ := mixColumns_spec (shiftRows_length _) hsh
    obtain ⟨hrl, hrb⟩ := roundKeyBytes_spec hlen hg (show n + 1 ≤ 14 by omega)
    constructor
    · show (xorBytes (mixColumns (shiftRows (subWord (aesRounds ws st n))))
        (roundKeyBytes ws (n + 1))).length = 16
      rw [xorBytes_length, hml, hrl]
      omega
    · show ∀ x ∈ xorBytes (mixColumns (shiftRows (subWord (aesRounds ws st n))))
        (roundKeyBytes ws (n + 1)), x < 256
      exact xorBytes_lt _ _ hmb hrb

theorem aes256Block_spec (key : List Nat) (hk : key.length = 32)
    (hkb : ∀ x ∈ key, x < 256) (block : List Nat) (hbl : block.length = 16)
    (hbb : ∀ x ∈ block, x < 256) :
    (aes256EncryptBlock key block).length = 16 ∧
    ∀ x ∈ aes256EncryptBlock key block, x < 256 := by
  obtain ⟨hkl, hkg⟩ := aesExpandKey_good key hk hkb
  obtain ⟨hr0l, hr0b⟩ := roundKeyBytes_spec hkl hkg (show (0 : Nat) ≤ 14 by omega)
  obtain ⟨hr14l, hr14b⟩ := roundKeyBytes_spec hkl hkg (show (14 : Nat) ≤ 14 by omega)
  have hst0l : (xorBytes block (roundKeyBytes (aesExpandKey key) 0)).length = 16 := by
    rw [xorBytes_length, hbl, hr0l]
    omega
  have hst0b := xorBytes_lt block (roundKeyBytes (aesExpandKey key) 0) hbb hr0b
  obtain ⟨h13l, h13b⟩ := aesRounds_spec hkl hkg _ hst0l hst0b 13 (by omega)
  constructor
  · show (xorBytes (shiftRows (subWord _)) (roundKeyBytes (aesExpandKey key) 14)).length = 16
    rw [xorBytes_length, shiftRows_length, hr14l]
    omega
  · show ∀ x ∈ xorBytes (shiftRows (subWord _)) (roundKeyBytes (aesExpandKey key) 14), x < 256
    exact xorBytes_lt _ _ (shiftRows_lt (subWord_lt _)) hr14b

/-! ## Lemmas: the GCM round trip -/

theorem keystream_spec (E : List Nat → List Nat)
    (hE : ∀ b : List Nat, b.length = 16 → (∀ x ∈ b, x < 256) →
      (E b).length = 16 ∧ ∀ x ∈ E b, x < 256) (j0 len : Nat) :
    (keystream E j0 len).length = len ∧ ∀ x ∈ keystream E j0 len, x < 256 := by
  have hblocks : ∀ c ∈ (List.range ((len + 15) / 16)).map
      (fun i => E (nat128ToBytes (inc32Iter j0 (i + 1)))), c.length = 16 := by
    intro c hc
    rcases List.mem_map.mp hc with ⟨i, _, rfl⟩
    exact (hE _ (nat128ToBytes_length _) (nat128ToBytes_lt _)).1
  constructor
  · show ((((List.range ((len + 15) / 16)).map
      (fun i => E (nat128ToBytes (inc32Iter j0 (i + 1))))).flatten).take len).length = len
    rw [List.length_take, length_flatten_const 16 _ hblocks, List.length_map,
      List.length_range]
    omega
  · intro x hx
    have hx2 := List.mem_of_mem_take hx
    rcases List.mem_flatten.mp hx2 with ⟨c, hc, hxc⟩
    rcases List.mem_map.mp hc with ⟨i, _, rfl⟩
    exact (hE _ (nat128ToBytes_length _) (nat128ToBytes_lt _)).2 x hxc

theorem gcmTag_spec (E : List Nat → List Nat)
    (hE : ∀ b : List Nat, b.length = 16 → (∀ x ∈ b, x < 256) →
      (E b).length = 16 ∧ ∀ x ∈ E b, x < 256) (j0 : Nat) (ct : List Nat) :
    (gcmTag E j0 ct).length = 16 ∧ ∀ x ∈ gcmTag E j0 ct, x < 256 := by
  have hEj0 := hE (nat128ToBytes j0) (nat128ToBytes_length _) (nat128ToBytes_lt _)
  constructor
  · show (xorBytes _ _).length = 16
    rw [xorBytes_length, nat128ToBytes_length, hEj0.1]
    omega
  · exact xorBytes_lt _ _ (nat128ToBytes_lt _) hEj0.2

theorem gcmEncrypt_spec (E : List Nat → List Nat)
    (hE : ∀ b : List Nat, b.length = 16 → (∀ x ∈ b, x < 256) →
      (E b).length = 16 ∧ ∀ x ∈ E b, x < 256) (iv pt : List Nat)
    (hpt : ∀ x ∈ pt, x < 256) :
    (gcmEncrypt E iv pt).length = pt.length + 16 ∧
    ∀ x ∈ gcmEncrypt E iv pt, x < 256 := by
  obtain ⟨hksl, hksb⟩ := keystream_spec E hE (gcmJ0 E iv) pt.length
  obtain ⟨htgl, htgb⟩ := gcmTag_spec E hE (gcmJ0 E iv)
    (xorBytes pt (keystream E (gcmJ0 E iv) pt.length))
  have hctl : (xorBytes pt (keystream E (gcmJ0 E iv) pt.length)).length = pt.length := by
    rw [xorBytes_length, hksl]
    omega
  constructor
  · show (xorBytes pt (keystream E (gcmJ0 E iv) pt.length) ++ _).length = pt.length + 16
    rw [List.length_append, hctl, htgl]
  · intro x hx
    rcases List.mem_append.mp hx with hx | hx
    · exact xorBytes_lt _ _ hpt hksb x hx
    · exact htgb x hx

theorem gcmDecrypt_gcmEncrypt (E : List Nat → List Nat)
    (hE : ∀ b : List Nat, b.length = 16 → (∀ x ∈ b, x < 256) →
      (E b).length = 16 ∧ ∀ x ∈ E b, x < 256) (iv pt : List Nat) :
    gcmDecrypt E iv (gcmEncrypt E iv pt) = .ok pt := by
  obtain ⟨hksl, hksb⟩ := keystream_spec E hE (gcmJ0 E iv) pt.length
  obtain ⟨htagl, _⟩ := gcmTag_spec E hE (gcmJ0 E iv)
    (xorBytes pt (keystream E (gcmJ0 E iv) pt.length))
  have hctl : (xorBytes pt (keystream E (gcmJ0 E iv) pt.length)).length = pt.length := by
    rw [xorBytes_length, hksl]
    omega
  set ct := xorBytes pt (keystream E (gcmJ0 E iv) pt.length) with hct
  show gcmDecrypt E iv (ct ++ gcmTag E (gcmJ0 E iv) ct) = .ok pt
  unfold gcmDecrypt
  rw [if_neg (by rw [List.length_append, hctl, htagl]; omega)]
  have hsub : (ct ++ gcmTag E (gcmJ0 E iv) ct).length - 16 = ct.length := by
    rw [List.length_append, htagl]
    omega
  rw [hsub, List.take_left, List.drop_left, if_pos rfl, hctl, hct]
  rw [xorBytes_cancel pt _ (by rw [hksl])]

/-! ## Lemmas: hex and the envelope split -/

theorem hexCharVal_hexDigitChar : ∀ d, d < 16 →
    hexCharVal (hexDigitChar d) = some d := by decide

theorem hexDigitChar_ne_colon (n : Nat) : hexDigitChar n ≠ ':' := by
  unfold hexDigitChar
  by_cases h : n < 16
  · exact (by decide : ∀ m, m < 16 → "0123456789abcdef".toList.getD m '0' ≠ ':') n h
  · rw [List.getD_eq_default _ _
      (by rw [show ("0123456789abcdef".toList).length = 16 from rfl]; omega)]
    decide

theorem toHexChars_length (bs : List Nat) : (toHexChars bs).length = 2 * bs.length :=
  length_flatMap_const 2 bs (fun _ _ => rfl)

theorem toHexChars_ne_colon (bs : List Nat) : ∀ c ∈ toHexChars bs, c ≠ ':' := by
  intro c hc
  rcases List.mem_flatMap.mp hc with ⟨b, _, hcb⟩
  simp only [List.mem_cons, List.not_mem_nil, or_false] at hcb
  rcases hcb with rfl | rfl <;> exact hexDigitChar_ne_colon _

theorem parseIntHexJS_pair {d1 d2 : Nat} (h1 : d1 < 16) (h2 : d2 < 16) :
    parseIntHexJS [hexDigitChar d1, hexDigitChar d2] = 16 * d1 + d2 := by
  simp [parseIntHexJS, hexCharVal_hexDigitChar d1 h1, hexCharVal_hexDigitChar d2 h2]

theorem parseHex_toHex : ∀ (bs : List Nat), (∀ b ∈ bs, b < 256) →
    parseHexJS (toHexChars bs) = bs := by
  intro bs
  induction bs with
  | nil => intro _; rfl
  | cons b rest ih =>
    intro hb
    have hb256 := hb b (by simp)
    have hsplit : toHexChars (b :: rest) =
        hexDigitChar (b / 16 % 16) :: hexDigitChar (b % 16) :: toHexChars rest := rfl
    show parseHexJS (toHexChars (b :: rest)) = b :: rest
    rw [hsplit]
    unfold parseHexJS
    rw [chunks_cons_eq 2 (by omega) _ (by simp), List.map_cons]
    have htake : (hexDigitChar (b / 16 % 16) :: hexDigitChar (b % 16) ::
        toHexChars rest).take 2 = [hexDigitChar (b / 16 % 16), hexDigitChar (b % 16)] := rfl
    have hdrop : (hexDigitChar (b / 16 % 16) :: hexDigitChar (b % 16) ::
        toHexChars rest).drop 2 = toHexChars rest := rfl
    rw [htake, hdrop, parseIntHexJS_pair (Nat.mod_lt _ (by omega)) (Nat.mod_lt _ (by omega))]
    have hval : 16 * (b / 16 % 16) + b % 16 = b := by omega
    rw [hval]
    have := ih (fun y hy => hb y (by simp [hy]))
    unfold parseHexJS at this
    rw [this]

theorem splitOnColon_cons (c : Char) (rest : List Char) :
    splitOnColon (c :: rest) =
      match splitOnColon rest with
      | [] => [[c]]
      | h :: t => if c = ':' then [] :: h :: t else (c :: h) :: t := rfl

theorem splitOnColon_ne_nil (l : List Char) : splitOnColon l ≠ [] := by
  cases l with
  | nil => simp [splitOnColon]
  | cons c rest =>
    rw [splitOnColon_cons]
    rcases splitOnColon rest with _ | ⟨h, t⟩
    · simp
    · split_ifs <;> simp

theorem splitOnColon_no_colon : ∀ (l : List Char), (∀ c ∈ l, c ≠ ':') →
    splitOnColon l = [l] := by
  intro l
  induction l with
  | nil => intro _; rfl
  | cons c rest ih =>
    intro h
    rw [splitOnColon_cons, ih (fun x hx => h x (by simp [hx]))]
    show (if c = ':' then [] :: rest :: [] else (c :: rest) :: []) = [c :: rest]
    rw [if_neg (h c (by simp))]

theorem splitOnColon_append : ∀ (a b : List Char), (∀ c ∈ a, c ≠ ':') →
    splitOnColon (a ++ ':' :: b) = a :: splitOnColon b := by
  intro a
  induction a with
  | nil =>
    intro b _
    show splitOnColon (':' :: b) = [] :: splitOnColon b
    rw [splitOnColon_cons]
    rcases hsb : splitOnColon b with _ | ⟨h, t⟩
    · exact absurd hsb (splitOnColon_ne_nil b)
    · show (if ':' = ':' then [] :: h :: t else (':' :: h) :: t) = [] :: h :: t
      rw [if_pos rfl]
  | cons x a2 ih =>
    intro b ha
    show splitOnColon (x :: (a2 ++ ':' :: b)) = (x :: a2) :: splitOnColon b
    rw [splitOnColon_cons, ih b (fun c hc => ha c (by simp [hc]))]
    show (if x = ':' then [] :: a2 :: splitOnColon b
      else (x :: a2) :: splitOnColon b) = (x :: a2) :: splitOnColon b
    rw [if_neg (ha x (by simp))]

/-! ## Lemmas: the derived key -/

theorem sha256Compress_length (h block : List Nat) :
    (sha256Compress h block).length = 8 := by
  unfold sha256Compress
  rcases (List.range 64).foldl (sha256Round (sha256ExtendW ((chunks 4 block).map bytesToNatBE) 48))
    (h.getD 0 0, h.getD 1 0, h.getD 2 0, h.getD 3 0, h.getD 4 0, h.getD 5 0, h.getD 6 0, h.getD 7 0)
    with ⟨a, b, c, d, e, f, g, h8⟩
  rfl

theorem foldl_sha256Compress_length (blocks : List (List Nat)) (h0 : List Nat)
    (hh : h0.length = 8) : (blocks.foldl sha256Compress h0).length = 8 := by
  induction blocks generalizing h0 with
  | nil => exact hh
  | cons b bs ih => exact ih _ (sha256Compress_length h0 b)

theorem sha256_length (msg : List Nat) : (sha256 msg).length = 32 := by
  unfold sha256
  rw [length_flatMap_const 4 _ (fun x _ => u32BytesBE_length x)]
  rw [foldl_sha256Compress_length _ _ (by rfl)]

theorem sha256_lt (msg : List Nat) : ∀ x ∈ sha256 msg, x < 256 := by
  intro x hx
  unfold sha256 at hx
  rcases List.mem_flatMap.mp hx with ⟨w, _, hxw⟩
  exact u32BytesBE_lt w x hxw

theorem hmacSha256_length (key msg : List Nat) : (hmacSha256 key msg).length = 32 :=
  sha256_length _

theorem hmacSha256_lt (key msg : List Nat) : ∀ x ∈ hmacSha256 key msg, x < 256 :=
  sha256_lt _

theorem pbkdf2Iter_spec (pw : List Nat) : ∀ (n : Nat) (u acc : List Nat),
    acc.length = 32 → (∀ x ∈ acc, x < 256) →
    (pbkdf2Iter pw u acc n).length = 32 ∧ ∀ x ∈ pbkdf2Iter pw u acc n, x < 256 := by
  intro n
  induction n with
  | zero => intro u acc hl hb; exact ⟨hl, hb⟩
  | succ n ih =>
    intro u acc hl hb
    show (pbkdf2Iter pw (hmacSha256 pw u) (xorBytes acc (hmacSha256 pw u)) n).length = 32 ∧ _
    exact ih _ _ (by rw [xorBytes_length, hl, hmacSha256_length]; omega)
      (xorBytes_lt _ _ hb (hmacSha256_lt _ _))

theorem deriveKey_length (password : List Char) (salt : List Nat) :
    (deriveKey password salt).length = 32 := by
  simp only [deriveKey]
  exact (pbkdf2Iter_spec (utf8Encode password) 99999
    (hmacSha256 (utf8Encode password) (salt ++ [0, 0, 0, 1]))
    (hmacSha256 (utf8Encode password) (salt ++ [0, 0, 0, 1]))
    (hmacSha256_length _ _) (hmacSha256_lt _ _)).1

theorem deriveKey_lt (password : List Char) (salt : List Nat) :
    ∀ x ∈ deriveKey password salt, x < 256 := by
  simp only [deriveKey]
  exact (pbkdf2Iter_spec (utf8Encode password) 99999
    (hmacSha256 (utf8Encode password) (salt ++ [0, 0, 0, 1]))
    (hmacSha256 (utf8Encode password) (salt ++ [0, 0, 0, 1]))
    (hmacSha256_length _ _) (hmacSha256_lt _ _)).2

/-! ## Lemmas: UTF-8 round trip -/

theorem char_toNat_valid (c : Char) :
    c.toNat < 55296 ∨ (57343 < c.toNat ∧ c.toNat < 1114112) := c.valid

theorem utf8EncodeChar_lt (c : Char) : ∀ x ∈ utf8EncodeChar c, x < 256 := by
  have hv : c.toNat < 1114112 := by
    rcases char_toNat_valid c with h | h <;> omega
  intro x hx
  simp only [utf8EncodeChar] at hx
  split_ifs at hx with h1 h2 h3
  · simp only [List.mem_cons, List.not_mem_nil, or_false] at hx
    omega
  · simp only [List.mem_cons, List.not_mem_nil, or_false] at hx
    rcases hx with rfl | rfl <;> omega
  · simp only [List.mem_cons, List.not_mem_nil, or_false] at hx
    rcases hx with rfl | rfl | rfl <;> omega
  · simp only [List.mem_cons, List.not_mem_nil, or_false] at hx
    rcases hx with rfl | rfl | rfl | rfl <;> omega

theorem utf8Encode_lt (s : List Char) : ∀ x ∈ utf8Encode s, x < 256 := by
  intro x hx
  rcases List.mem_flatMap.mp hx with ⟨c, _, hxc⟩
  exact utf8EncodeChar_lt c x hxc

theorem utf8DecodeFuel_step1 {b0 : Nat} (h : b0 < 128) (rest : List Nat) (f : Nat) :
    utf8DecodeFuel (f + 1) (b0 :: rest) = Char.ofNat b0 :: utf8DecodeFuel f rest := by
  simp only [utf8DecodeFuel]
  rw [if_pos h]

theorem utf8DecodeFuel_step2 {b0 b1 : Nat} (h0 : 192 ≤ b0) (h0b : b0 < 224)
    (h1 : isCont b1 = true) (rest : List Nat) (f : Nat) :
    utf8DecodeFuel (f + 1) (b0 :: b1 :: rest) =
      Char.ofNat ((b0 - 192) * 64 + (b1 - 128)) :: utf8DecodeFuel f rest := by
  simp only [utf8DecodeFuel]
  rw [if_neg (by omega), if_neg (by omega), if_pos h0b]
  simp [h1]

theorem utf8DecodeFuel_step3 {b0 b1 b2 : Nat} (h0 : 224 ≤ b0) (h0b : b0 < 240)
    (h1 : isCont b1 = true) (h2 : isCont b2 = true) (rest : List Nat) (f : Nat) :
    utf8DecodeFuel (f + 1) (b0 :: b1 :: b2 :: rest) =
      Char.ofNat ((b0 - 224) * 4096 + (b1 - 128) * 64 + (b2 - 128)) ::
        utf8DecodeFuel f rest := by
  simp only [utf8DecodeFuel]
  rw [if_neg (by omega), if_neg (by omega), if_neg (by omega), if_pos h0b]
  simp [h1, h2]

theorem utf8DecodeFuel_step4 {b0 b1 b2 b3 : Nat} (h0 : 240 ≤ b0)
    (h1 : isCont b1 = true) (h2 : isCont b2 = true) (h3 : isCont b3 = true)
    (rest : List Nat) (f : Nat) :
    utf8DecodeFuel (f + 1) (b0 :: b1 :: b2 :: b3 :: rest) =
      Char.ofNat ((b0 - 240) * 262144 + (b1 - 128) * 4096 + (b2 - 128) * 64 +
        (b3 - 128)) :: utf8DecodeFuel f rest := by
  simp only [utf8DecodeFuel]
  rw [if_neg (by omega), if_neg (by omega), if_neg (by omega), if_neg (by omega)]
  simp [h1, h2, h3]

theorem isCont_of_mod (n _k : Nat) : isCont (128 + n % 64) = true := by
  simp only [isCont, decide_eq_true_eq]
  omega

theorem utf8DecodeFuel_encode : ∀ (s : List Char) (fuel : Nat),
    (utf8Encode s).length ≤ fuel → utf8DecodeFuel fuel (utf8Encode s) = s := by
  intro s
  induction s with
  | nil =>
    intro fuel _
    cases fuel <;> rfl
  | cons c cs ih =>
    intro fuel hf
    have hval := char_toNat_valid c
    have henc : utf8Encode (c :: cs) = utf8EncodeChar c ++ utf8Encode cs := rfl
    rw [henc] at hf ⊢
    by_cases h1 : c.toNat < 128
    · have he : utf8EncodeChar c = [c.toNat] := by
        simp only [utf8EncodeChar]
        rw [if_pos h1]
      rw [he] at hf ⊢
      cases fuel with
      | zero => simp at hf
      | succ f =>
        show utf8DecodeFuel (f + 1) (c.toNat :: utf8Encode cs) = c :: cs
        rw [utf8DecodeFuel_step1 h1, Char.ofNat_toNat,
          ih f (by simp only [List.length_cons, List.length_append,
            List.length_nil] at hf; omega)]
    · by_cases h2 : c.toNat < 2048
      · have he : utf8EncodeChar c = [192 + c.toNat / 64, 128 + c.toNat % 64] := by
          simp only [utf8EncodeChar]
          rw [if_neg h1, if_pos h2]
        rw [he] at hf ⊢
        cases fuel with
        | zero => simp at hf
        | succ f =>
          show utf8DecodeFuel (f + 1) ((192 + c.toNat / 64) ::
            (128 + c.toNat % 64) :: utf8Encode cs) = c :: cs
          rw [utf8DecodeFuel_step2 (by omega) (by omega) (isCont_of_mod c.toNat 0)]
          have hv : (192 + c.toNat / 64 - 192) * 64 + (128 + c.toNat % 64 - 128)
              = c.toNat := by omega
          rw [hv, Char.ofNat_toNat,
            ih f (by simp only [List.length_cons, List.length_append,
              List.length_nil] at hf; omega)]
      · by_cases h3 : c.toNat < 65536
        · have he : utf8EncodeChar c = [224 + c.toNat / 4096,
              128 + c.toNat / 64 % 64, 128 + c.toNat % 64] := by
            simp only [utf8EncodeChar]
            rw [if_neg h1, if_neg h2, if_pos h3]
          rw [he] at hf ⊢
          cases fuel with
          | zero => simp at hf
          | succ f =>
            show utf8DecodeFuel (f + 1) ((224 + c.toNat / 4096) ::
              (128 + c.toNat / 64 % 64) :: (128 + c.toNat % 64) :: utf8Encode cs) = c :: cs
            rw [utf8DecodeFuel_step3 (by omega) (by omega)
              (isCont_of_mod (c.toNat / 64) 0) (isCont_of_mod c.toNat 0)]
            have hv : (224 + c.toNat / 4096 - 224) * 4096 +
                (128 + c.toNat / 64 % 64 - 128) * 64 + (128 + c.toNat % 64 - 128)
                = c.toNat := by omega
            rw [hv, Char.ofNat_toNat,
              ih f (by simp only [List.length_cons, List.length_append,
              List.length_nil] at hf; omega)]
        · have hvlt : c.toNat < 1114112 := by
            rcases hval with h | h <;> omega
          have he : utf8EncodeChar c = [240 + c.toNat / 262144,
              128 + c.toNat / 4096 % 64, 128 + c.toNat / 64 % 64,
              128 + c.toNat % 64] := by
            simp only [utf8EncodeChar]
            rw [if_neg h1, if_neg h2, if_neg h3]
          rw [he] at hf ⊢
          cases fuel with
          | zero => simp at hf
          | succ f =>
            show utf8DecodeFuel (f + 1) ((240 + c.toNat / 262144) ::
              (128 + c.toNat / 4096 % 64) :: (128 + c.toNat / 64 % 64) ::
              (128 + c.toNat % 64) :: utf8Encode cs) = c :: cs
            rw [utf8DecodeFuel_step4 (by omega)
              (isCont_of_mod (c.toNat / 4096) 0) (isCont_of_mod (c.toNat / 64) 0)
              (isCont_of_mod c.toNat 0)]
            have hv : (240 + c.toNat / 262144 - 240) * 262144 +
                (128 + c.toNat / 4096 % 64 - 128) * 4096 +
                (128 + c.toNat / 64 % 64 - 128) * 64 +
                (128 + c.toNat % 64 - 128) = c.toNat := by omega
            rw [hv, Char.ofNat_toNat,
              ih f (by simp only [List.length_cons, List.length_append,
              List.length_nil] at hf; omega)]

theorem utf8Decode_encode (s : List Char) : utf8Decode (utf8Encode s) = s :=
  utf8DecodeFuel_encode s _ le_rfl

/-! ## Lemmas: the envelope round trip -/

theorem aes256_hE (key : List Nat) (hk : key.length = 32)
    (hkb : ∀ x ∈ key, x < 256) : ∀ b : List Nat, b.length = 16 →
    (∀ x ∈ b, x < 256) → (aes256EncryptBlock key b).length = 16 ∧
      ∀ x ∈ aes256EncryptBlock key b, x < 256 :=
  fun b hbl hbb => aes256Block_spec key hk hkb b hbl hbb

theorem decrypt_eq_of_split {key : List Nat} {s ivHex ctHex : List Char}
    (hsp : splitOnColon s = [ivHex, ctHex]) (hne1 : ivHex ≠ []) (hne2 : ctHex ≠ []) :
    decrypt key s = (gcmDecrypt (aes256EncryptBlock key) (parseHexJS ivHex)
      (parseHexJS ctHex)).map utf8Decode := by
  unfold decrypt
  rw [hsp]
  show (if ivHex = [] ∨ ctHex = [] then Except.error CryptoError.invalidDataFormat
    else (gcmDecrypt (aes256EncryptBlock key) (parseHexJS ivHex)
      (parseHexJS ctHex)).map utf8Decode) = _
  rw [if_neg (fun h => h.elim (fun h1 => hne1 h1) (fun h2 => hne2 h2))]

theorem decrypt_encrypt (key : List Nat) (hk : key.length = 32)
    (hkb : ∀ x ∈ key, x < 256) (iv : List Nat) (hiv : iv.length = 12)
    (hivb : ∀ x ∈ iv, x < 256) (m : List Char) :
    decrypt key (encrypt key iv m) = .ok m := by
  have hE := aes256_hE key hk hkb
  obtain ⟨hgl, hgb⟩ := gcmEncrypt_spec (aes256EncryptBlock key) hE iv
    (utf8Encode m) (utf8Encode_lt m)
  have henv : encrypt key iv m = toHexChars iv ++ ':' ::
      toHexChars (gcmEncrypt (aes256EncryptBlock key) iv (utf8Encode m)) := rfl
  have hsp : splitOnColon (encrypt key iv m) =
      [toHexChars iv, toHexChars (gcmEncrypt (aes256EncryptBlock key) iv (utf8Encode m))] := by
    rw [henv, splitOnColon_append _ _ (toHexChars_ne_colon iv),
      splitOnColon_no_colon _ (toHexChars_ne_colon _)]
  have hne1 : toHexChars iv ≠ [] := by
    intro h
    have := toHexChars_length iv
    rw [h, hiv] at this
    simp at this
  have hne2 : toHexChars (gcmEncrypt (aes256EncryptBlock key) iv (utf8Encode m)) ≠ [] := by
    intro h
    have := toHexChars_length (gcmEncrypt (aes256EncryptBlock key) iv (utf8Encode m))
    rw [h, hgl] at this
    simp at this
  rw [decrypt_eq_of_split hsp hne1 hne2, parseHex_toHex iv hivb,
    parseHex_toHex _ hgb, gcmDecrypt_gcmEncrypt _ hE]
  show Except.ok (utf8Decode (utf8Encode m)) = Except.ok m
  rw [utf8Decode_encode]

theorem gcmDecrypt_map_ne_invalid (E : List Nat → List Nat) (iv d : List Nat) :
    (gcmDecrypt E iv d).map utf8Decode ≠ .error .invalidDataFormat := by
  unfold gcmDecrypt
  by_cases h1 : d.length < 16
  · rw [if_pos h1]
    simp [Except.map]
  · rw [if_neg h1]
    by_cases h2 : d.drop (d.length - 16) =
        gcmTag E (gcmJ0 E iv) (d.take (d.length - 16))
    · rw [if_pos h2]
      simp [Except.map]
    · rw [if_neg h2]
      simp [Except.map]

/-! ## Lemmas: store keys -/

theorem getStorageKey_ne_getUserKey (email : List Char) :
    getStorageKey email ≠ getUserKey email := by
  intro h
  have h5 : (getStorageKey email).getD 5 ' ' = (getUserKey email).getD 5 ' ' :=
    congrArg (fun l => l.getD 5 ' ') h
  have e1 : (getStorageKey email).getD 5 ' ' = 'a' := rfl
  have e2 : (getUserKey email).getD 5 ' ' = 'u' := rfl
  rw [e1, e2] at h5
  exact absurd h5 (by decide)

/-! ## Witness fixtures: concrete stores and inputs -/

/-- A concrete email for the witnesses. -/
def wEmail : List Char := "user@example.com".toList

/-- A store holding only the user record of `wEmail` (no account blob). -/
def wStore : Store := saveUser Store.empty wEmail "0f3a".toList

/-- The user record `wStore` holds. -/
def wUser : UserData := ⟨"0f3a".toList, wEmail⟩

/-- A concrete old email for the rename witness. -/
def wOld : List Char := "old@example.com".toList

/-- A concrete new email for the rename witness. -/
def wNew : List Char := "new@example.com".toList

/-- A store holding user records under both `wOld` and `wNew`. -/
def wStore10 : Store := saveUser (saveUser Store.empty wOld "aa".toList) wNew "bb".toList

/-! ## Claim theorems -/

/-- C6: the password change first verifies the supplied current password by
attempting to load the account blob under a key derived from it and the
stored salt.  If that load fails, the operation fails and the store is
unchanged; on success it re-encrypts the in-memory account list under a key
derived from the new password and the *same* stored salt, persists it over
the prior blob, and the user record (hence the salt) is untouched. -/
theorem c6_change_password (store : Store) (email : List Char)
    (accounts : List Account) (cur new : List Char) (iv : List Nat)
    (u : UserData) (hu : loadUser store email = some u) :
    (∀ e, loadAccounts store (deriveKey cur (parseHexJS u.salt)) email = .error e →
      handleChangePassword store email accounts cur new iv =
        (store, .error .currentPasswordIncorrect)) ∧
    (∀ accs, loadAccounts store (deriveKey cur (parseHexJS u.salt)) email = .ok accs →
      handleChangePassword store email accounts cur new iv =
        (Store.set store (getStorageKey email)
          (encrypt (deriveKey new (parseHexJS u.salt)) iv (serializeAccounts accounts)),
         .ok (deriveKey new (parseHexJS u.salt))) ∧
      (handleChangePassword store email accounts cur new iv).1 (getUserKey email) =
        store (getUserKey email)) := by
  constructor
  · intro e he
    simp only [handleChangePassword, hu, he]
  · intro accs ha
    have hmain : handleChangePassword store email accounts cur new iv =
        (Store.set store (getStorageKey email)
          (encrypt (deriveKey new (parseHexJS u.salt)) iv (serializeAccounts accounts)),
         .ok (deriveKey new (parseHexJS u.salt))) := by
      simp only [handleChangePassword, hu, ha, saveAccounts]
    refine ⟨hmain, ?_⟩
    rw [hmain]
    show Store.set store (getStorageKey email)
      (encrypt (deriveKey new (parseHexJS u.salt)) iv (serializeAccounts accounts))
      (getUserKey email) = store (getUserKey email)
    unfold Store.set
    rw [if_neg (fun hc => getStorageKey_ne_getUserKey email hc.symm)]

/-- C6 witness: a store holding only the user record (no blob yet), so the
verification load succeeds with the empty list, and the change persists the
re-encrypted list and leaves the user record alone. -/
theorem c6_change_password_witness :
    handleChangePassword wStore wEmail [] "pw1".toList "pw2".toList
      [0, 0, 0, 0, 0, 0, 0, 0, 0, 0, 0, 0] =
      (Store.set wStore (getStorageKey wEmail)
        (encrypt (deriveKey "pw2".toList (parseHexJS wUser.salt))
          [0, 0, 0, 0, 0, 0, 0, 0, 0, 0, 0, 0] (serializeAccounts [])),
       .ok (deriveKey "pw2".toList (parseHexJS wUser.salt))) ∧
    (handleChangePassword wStore wEmail [] "pw1".toList "pw2".toList
      [0, 0, 0, 0, 0, 0, 0, 0, 0, 0, 0, 0]).1 (getUserKey wEmail) =
      wStore (getUserKey wEmail) :=
  (c6_change_password wStore wEmail [] "pw1".toList "pw2".toList
    [0, 0, 0, 0, 0, 0, 0, 0, 0, 0, 0, 0] wUser (by decide)).2 [] (by decide)

/-- C7 counterexample: a migration payload with one sub-message whose raw
secret is the single byte `0xFF` yields one account whose secret is the
Base32 text `7`, but decoding that secret gives the empty byte list, not
the original raw bytes — the secret is not re-encodable. -/
theorem c7_migration_counterexample :
    migrationAccounts [⟨[255], "n".toList, "i".toList, 1, 6, 2, 0⟩] =
      .ok [⟨['7'], "n".toList, "i".toList⟩] ∧
    base32ToBytes ['7'] = .ok [] ∧ (([] : List Nat) ≠ [255]) := by
  refine ⟨?_, ?_, ?_⟩ <;> decide

/-- C7 (amended): a bulk migration payload decoding to `N ≥ 1` sub-messages
yields exactly `N` accounts, each secret being the Base32 encoding of that
sub-message's raw secret bytes; the secret is re-encodable back to the
original raw bytes exactly when the raw length is a positive multiple of 5
(otherwise the encoder drops the trailing partial 5-bit chunk). -/
theorem c7_migration_spec (params : List OtpParameters) (hne : params ≠ []) :
    ∃ accounts, migrationAccounts params = .ok accounts ∧
      accounts.length = params.length ∧
      (∀ i, i < params.length → (accounts.getD i ⟨[], [], []⟩).secret =
        bytesToBase32 ((params.getD i ⟨[], [], [], 0, 0, 0, 0⟩).secret)) ∧
      (∀ p ∈ params, p.secret.length % 5 = 0 → p.secret ≠ [] →
        (∀ x ∈ p.secret, x < 256) →
        base32ToBytes (bytesToBase32 p.secret) = .ok p.secret) := by
  refine ⟨params.map (fun p => ⟨bytesToBase32 p.secret, p.name,
    if p.issuer = [] then p.name else p.issuer⟩), ?_, ?_, ?_, ?_⟩
  · unfold migrationAccounts
    rw [if_neg (by rw [List.length_eq_zero]; exact hne)]
  · simp
  · intro i hi
    rw [List.getD_eq_getElem _ _ (by simpa using hi), List.getD_eq_getElem _ _ hi,
      List.getElem_map]
  · intro p _ h5 hne2 hb
    exact base32_roundtrip_aux p.secret hb h5 hne2

/-- C7 witness: a single sub-message with a five-byte raw secret. -/
theorem c7_migration_spec_witness :
    ∃ accounts, migrationAccounts
        [⟨[1, 2, 3, 4, 5], "acme".toList, "acme".toList, 1, 6, 2, 0⟩] =
        .ok accounts ∧
      accounts.length = ([⟨[1, 2, 3, 4, 5], "acme".toList, "acme".toList, 1, 6, 2, 0⟩] :
        List OtpParameters).length ∧
      (∀ i, i < ([⟨[1, 2, 3, 4, 5], "acme".toList, "acme".toList, 1, 6, 2, 0⟩] :
          List OtpParameters).length →
        (accounts.getD i ⟨[], [], []⟩).secret =
          bytesToBase32 ((([⟨[1, 2, 3, 4, 5], "acme".toList, "acme".toList, 1, 6, 2, 0⟩] :
            List OtpParameters).getD i ⟨[], [], [], 0, 0, 0, 0⟩).secret)) ∧
      (∀ p ∈ ([⟨[1, 2, 3, 4, 5], "acme".toList, "acme".toList, 1, 6, 2, 0⟩] :
          List OtpParameters), p.secret.length % 5 = 0 → p.secret ≠ [] →
        (∀ x ∈ p.secret, x < 256) →
        base32ToBytes (bytesToBase32 p.secret) = .ok p.secret) :=
  c7_migration_spec [⟨[1, 2, 3, 4, 5], "acme".toList, "acme".toList, 1, 6, 2, 0⟩]
    (by decide)

/-- C10: renaming a user to an email that already has a user record returns
`false` and leaves the whole store — both user records and both account
blobs — unchanged; more generally the store is mutated only when the
operation returns `true`. -/
theorem c10_update_user_email (store : Store) (oldEmail newEmail : List Char)
    (_hne : oldEmail ≠ newEmail) :
    (userExists store newEmail = true →
      updateUserEmail store oldEmail newEmail = (false, store)) ∧
    ((updateUserEmail store oldEmail newEmail).1 = false →
      (updateUserEmail store oldEmail newEmail).2 = store) := by
  by_cases h : userExists store newEmail = true
  · constructor
    · intro _
      unfold updateUserEmail
      rw [if_pos h]
    · intro _
      unfold updateUserEmail
      rw [if_pos h]
  · constructor
    · intro habs
      exact absurd habs h
    · intro habs
      exfalso
      have htrue : (updateUserEmail store oldEmail newEmail).1 = true := by
        unfold updateUserEmail
        rw [if_neg h]
      rw [htrue] at habs
      exact absurd habs (by decide)

/-- C10 witness: with user records under both the old and the new email,
the rename returns `false` and the store is unchanged. -/
theorem c10_update_user_email_witness :
    updateUserEmail wStore10 wOld wNew = (false, wStore10) :=
  (c10_update_user_email wStore10 wOld wNew (by decide)).1 (by decide)

/-- C3: decrypting the envelope produced by encrypting plaintext `m` under
the key derived from password `p` and `salt` (with a fresh 12-byte IV)
returns `m`; `deriveKey` is a pure function of the password and salt, so
both sides obtain the same key. -/
theorem c3_envelope_roundtrip (password : List Char) (salt : List Nat)
    (m : List Char) (iv : List Nat) (hiv : iv.length = 12)
    (hivb : ∀ x ∈ iv, x < 256) :
    decrypt (deriveKey password salt)
      (encrypt (deriveKey password salt) iv m) = .ok m :=
  decrypt_encrypt (deriveKey password salt) (deriveKey_length password salt)
    (deriveKey_lt password salt) iv hiv hivb m

/-- C3 witness: the round trip at a concrete password, salt, plaintext and
IV. -/
theorem c3_envelope_roundtrip_witness :
    decrypt (deriveKey "hunter2".toList [7, 7])
      (encrypt (deriveKey "hunter2".toList [7, 7])
        [0, 1, 2, 3, 4, 5, 6, 7, 8, 9, 10, 11] "vault data".toList) =
      .ok "vault data".toList :=
  c3_envelope_roundtrip "hunter2".toList [7, 7] "vault data".toList
    [0, 1, 2, 3, 4, 5, 6, 7, 8, 9, 10, 11] (by decide) (by decide)

/-- C4 counterexample: the envelope `zz:aa` has a non-empty IV field that
is not valid hex, yet `decrypt` does not fail with the format error:
`parseInt` turns `zz` into NaN, the typed array stores the byte 0, and the
one-byte ciphertext field reaches AES-GCM, which fails with the operation
error instead. -/
theorem c4_invalid_hex_counterexample :
    decrypt (List.replicate 32 0) "zz:aa".toList = .error .operationError ∧
    CryptoError.operationError ≠ CryptoError.invalidDataFormat := by
  constructor
  · decide
  · decide

/-- C4 (amended): `decrypt` fails with the format error (the spec's
`MalformedEnvelope`) exactly when the `:`-split yields no second field or
an empty first or second field; a field that is non-empty but not valid
hex is NOT rejected — `parseInt` silently coerces it and processing
reaches AES-GCM, whose failures are the authentication/operation error. -/
theorem c4_decrypt_malformed_iff (key : List Nat) (s : List Char) :
    decrypt key s = .error .invalidDataFormat ↔
      ((splitOnColon s).length = 1 ∨ (splitOnColon s).getD 0 [] = [] ∨
        (splitOnColon s).getD 1 [] = []) := by
  rcases hsp : splitOnColon s with _ | ⟨a, _ | ⟨b, t⟩⟩
  · exact absurd hsp (splitOnColon_ne_nil s)
  · have hL : decrypt key s = .error .invalidDataFormat := by
      unfold decrypt
      rw [hsp]
    simp [hL]
  · by_cases hab : a = [] ∨ b = []
    · have hL : decrypt key s = .error .invalidDataFormat := by
        unfold decrypt
        rw [hsp]
        show (if a = [] ∨ b = [] then Except.error CryptoError.invalidDataFormat
          else _) = _
        rw [if_pos hab]
      constructor
      · intro _
        rcases hab with h | h
        · right; left; simpa using h
        · right; right; simpa using h
      · intro _
        exact hL
    · have hL : decrypt key s = (gcmDecrypt (aes256EncryptBlock key)
          (parseHexJS a) (parseHexJS b)).map utf8Decode := by
        unfold decrypt
        rw [hsp]
        show (if a = [] ∨ b = [] then _ else _) = _
        rw [if_neg hab]
      rw [hL]
      push_neg at hab
      constructor
      · intro hcon
        exact absurd hcon (gcmDecrypt_map_ne_invalid _ _ _)
      · intro hrhs
        exfalso
        rcases hrhs with h | h | h
        · simp at h
        · exact hab.1 (by simpa using h)
        · exact hab.2 (by simpa using h)

/-- C5: with the same key and plaintext, two `encrypt` calls whose freshly
drawn 12-byte IVs differ produce different envelope strings — the envelope
embeds the IV in hex up front, and the hex rendering is injective on byte
lists.  `encrypt` draws a new random IV on every call (modelled by the
explicit `iv` argument) and accepts none from the caller or storage, so
distinct draws give distinct ciphertexts. -/
theorem c5_encrypt_iv_fresh (key : List Nat) (m : List Char)
    (iv1 iv2 : List Nat) (h1 : iv1.length = 12) (h2 : iv2.length = 12)
    (hb1 : ∀ x ∈ iv1, x < 256) (hb2 : ∀ x ∈ iv2, x < 256) (hne : iv1 ≠ iv2) :
    encrypt key iv1 m ≠ encrypt key iv2 m := by
  intro heq
  have heq2 : toHexChars iv1 ++ ':' ::
      toHexChars (gcmEncrypt (aes256EncryptBlock key) iv1 (utf8Encode m)) =
      toHexChars iv2 ++ ':' ::
      toHexChars (gcmEncrypt (aes256EncryptBlock key) iv2 (utf8Encode m)) := heq
  have hlen : (toHexChars iv1).length = (toHexChars iv2).length := by
    rw [toHexChars_length, toHexChars_length, h1, h2]
  have hpre := (List.append_inj heq2 hlen).1
  have hiv : iv1 = iv2 := by
    rw [← parseHex_toHex iv1 hb1, ← parseHex_toHex iv2 hb2, hpre]
  exact hne hiv

/-- C5 witness: two concrete IVs differing in the last byte give different
envelopes for the same key and plaintext. -/
theorem c5_encrypt_iv_fresh_witness :
    encrypt (List.replicate 32 0) [0, 0, 0, 0, 0, 0, 0, 0, 0, 0, 0, 0]
      "secret".toList ≠
    encrypt (List.replicate 32 0) [0, 0, 0, 0, 0, 0, 0, 0, 0, 0, 0, 1]
      "secret".toList :=
  c5_encrypt_iv_fresh (List.replicate 32 0) "secret".toList _ _
    (by decide) (by decide) (by decide) (by decide) (by decide)

/-- C1 counterexample: the Base32 round trip fails on the single byte
`0xFF`.  The encoder emits only the one full 5-bit chunk (symbol `7`) and
drops the remaining three bits, so decoding returns the empty byte list,
not `[255]`. -/
theorem c1_roundtrip_counterexample :
    base32ToBytes (bytesToBase32 [255]) = .ok [] ∧
    (Except.ok ([] : List Nat) : Except Base32Error (List Nat)) ≠ .ok [255] := by
  decide

/-- C1 (amended): decoding the Base32 encoding of `b` returns `b` for every
non-empty byte sequence whose length is a multiple of 5; for other lengths
the encoder's `if (chunk.length === 5)` guard drops the trailing partial
chunk and the round trip truncates (and for the empty sequence the decoder
crashes on the null regex match). -/
theorem c1_base32_roundtrip (b : List Nat) (hb : ∀ x ∈ b, x < 256)
    (h5 : b.length % 5 = 0) (hne : b ≠ []) :
    base32ToBytes (bytesToBase32 b) = .ok b :=
  base32_roundtrip_aux b hb h5 hne

/-- C1 witness: the round trip at the concrete five-byte input
`[1, 2, 3, 254, 255]`. -/
theorem c1_base32_roundtrip_witness :
    base32ToBytes (bytesToBase32 [1, 2, 3, 254, 255]) = .ok [1, 2, 3, 254, 255] :=
  c1_base32_roundtrip [1, 2, 3, 254, 255] (by decide) (by decide) (by decide)

/-- C2 counterexample: the spec's known-answer secret `GEZDGNBVGY3TQOJQ` is
the Base32 encoding of the ten bytes `"1234567890"`, not of the twenty-byte
RFC 4226 key, and the code computes `891490` for counter 0, not
`755224`. -/
theorem c2_kat_counterexample :
    generateHOTP "GEZDGNBVGY3TQOJQ".toList 0 = .ok "891490".toList ∧
    (Except.ok "891490".toList : Except Base32Error (List Char)) ≠ .ok "755224".toList := by
  constructor
  · decide
  · decide

/-- C2 (amended): `generateHOTP` coincides with the RFC 4226 reference
computation for every secret and every counter below `2^64`, and the RFC
4226 test vectors hold for the full 32-symbol Base32 encoding
`GEZDGNBVGY3TQOJQGEZDGNBVGY3TQOJQ` of the twenty-byte key
`"12345678901234567890"`: counter 0 yields `755224` and counter 1 yields
`287082`. -/
theorem c2_hotp_rfc :
    (∀ (secret : List Char) (counter : Nat), counter < 2 ^ 64 →
      generateHOTP secret counter = rfcHotp secret counter) ∧
    generateHOTP "GEZDGNBVGY3TQOJQGEZDGNBVGY3TQOJQ".toList 0 = .ok "755224".toList ∧
    generateHOTP "GEZDGNBVGY3TQOJQGEZDGNBVGY3TQOJQ".toList 1 = .ok "287082".toList :=
  ⟨generateHOTP_eq_rfcHotp, by decide, by decide⟩

/-- C8: during enrollment verification the submitted code is accepted (the
check returns `ok true`) exactly when it equals one of the codes for
counters `counter - 1`, `counter` and `counter + 1`; every other code is
rejected. -/
theorem c8_verification_window (secret : List Char) (counter : Nat)
    (code : List Char) (_hcounter : 1 ≤ counter) :
    handleVerificationAccepts secret counter code = .ok true ↔
      ∃ c1 c2 c3, generateHOTP secret (counter - 1) = .ok c1 ∧
        generateHOTP secret counter = .ok c2 ∧
        generateHOTP secret (counter + 1) = .ok c3 ∧
        (code = c1 ∨ code = c2 ∨ code = c3) := by
  cases h1 : generateHOTP secret (counter - 1) with
  | error e =>
    simp [handleVerificationAccepts, h1, bind, Except.bind]
  | ok c1 =>
    cases h2 : generateHOTP secret counter with
    | error e =>
      simp [handleVerificationAccepts, h1, h2, bind, Except.bind]
    | ok c2 =>
      cases h3 : generateHOTP secret (counter + 1) with
      | error e =>
        simp [handleVerificationAccepts, h1, h2, h3, bind, Except.bind]
      | ok c3 =>
        simp [handleVerificationAccepts, h1, h2, h3, bind, Except.bind, pure,
          Except.pure, List.contains_cons, List.contains_nil, beq_iff_eq]

/-- C8 witness: the acceptance test at the concrete secret `ME`, counter 1
and submitted code `000000` is the three-way membership check. -/
theorem c8_verification_window_witness :
    handleVerificationAccepts "ME".toList 1 "000000".toList = .ok true ↔
      ∃ c1 c2 c3, generateHOTP "ME".toList 0 = .ok c1 ∧
        generateHOTP "ME".toList 1 = .ok c2 ∧
        generateHOTP "ME".toList 2 = .ok c3 ∧
        ("000000".toList = c1 ∨ "000000".toList = c2 ∨ "000000".toList = c3) :=
  c8_verification_window "ME".toList 1 "000000".toList (by decide)

/-- C9: on an input that is empty or consists only of `=` padding, the
Base32 decoder neither returns an empty byte list nor raises the typed
invalid-character error: it crashes with the untyped runtime type error
from dereferencing the null regex match, and `generateHOTP` propagates the
same untyped failure. -/
theorem c9_empty_padding_crash (s : List Char) (counter : Nat)
    (h : ∀ c ∈ s, c = '=') :
    base32ToBytes s = .error .nullMatchTypeError ∧
    generateHOTP s counter = .error .nullMatchTypeError := by
  have hall : ∀ c ∈ s.map Char.toUpper, (fun x => decide (x = '=')) c = true := by
    intro c hc
    rw [List.mem_map] at hc
    rcases hc with ⟨x, hx, rfl⟩
    rw [h x hx]
    decide
  have hstrip : stripTrailingPadding (s.map Char.toUpper) = [] := by
    unfold stripTrailingPadding
    rw [List.dropWhile_eq_nil_iff.mpr
      (fun x hx => hall x (List.mem_reverse.mp hx))]
    rfl
  have hdec : base32ToBytes s = .error .nullMatchTypeError := by
    unfold base32ToBytes
    rw [hstrip]
    rfl
  refine ⟨hdec, ?_⟩
  unfold generateHOTP
  rw [hdec]
  rfl

/-- C9 witness: the padding-only input `==` crashes the decoder and
`generateHOTP` with the untyped null-match error. -/
theorem c9_empty_padding_crash_witness :
    base32ToBytes "==".toList = .error .nullMatchTypeError ∧
    generateHOTP "==".toList 0 = .error .nullMatchTypeError :=
  c9_empty_padding_crash "==".toList 0 (by decide)

end CodeFlow
